import Mathlib

/-!
A verification development for the Chemistry Helper repository
(`aliases.py`, `chem_helper.py`, `constants.py`, `equations.py`, `gui.py`).

The Python sources are shallowly embedded below.  Numeric values (Python
`float` and `fractions.Fraction`) are modelled as exact rationals.  Because
the kernel cannot reduce Lean's built-in `Rat` arithmetic, we use our own
computable fraction type `Frac` (an `Int` numerator/denominator pair that is
re-normalised by every operation, exactly as Python's `Fraction` is, and
whose comparisons agree with real-number comparisons of the represented
values).  The bridge `Frac.val : Frac → ℚ` is used in proofs only.

Python `dict`s are modelled as insertion-ordered association lists whose
update operation replaces the value of an existing key in place, which
reproduces `dict` iteration order and lookup semantics.
-/

/-- Exact rational numbers as integer pairs.  Operations normalise the
result (divide by the gcd, make the denominator positive), mirroring
Python's `fractions.Fraction`; a zero denominator only arises from a
division by zero, which the embedded code always guards against. -/
structure Frac where
  num : Int
  den : Int
deriving DecidableEq, Repr

/-- Normalising constructor: reduce by the gcd and make the denominator
positive (Python `Fraction.__new__`). -/
def Frac.normMk (n d : Int) : Frac :=
  if d = 0 then ⟨0, 0⟩
  else
    let g0 : Int := (Int.gcd n d : Int)
    let g : Int := if d < 0 then -g0 else g0
    ⟨n / g, d / g⟩

def Frac.ofInt (n : Int) : Frac := ⟨n, 1⟩

/-- The decimal literal `m · 10^(-e)` (how we transcribe Python float
literals such as `4.184` or `1e-9`). -/
def Frac.dec (m : Int) (e : Nat) : Frac := Frac.normMk m ((10 : Int) ^ e)

def Frac.add (a b : Frac) : Frac :=
  Frac.normMk (a.num * b.den + b.num * a.den) (a.den * b.den)

def Frac.sub (a b : Frac) : Frac :=
  Frac.normMk (a.num * b.den - b.num * a.den) (a.den * b.den)

def Frac.mul (a b : Frac) : Frac :=
  Frac.normMk (a.num * b.num) (a.den * b.den)

def Frac.div (a b : Frac) : Frac :=
  Frac.normMk (a.num * b.den) (a.den * b.num)

def Frac.neg (a : Frac) : Frac := ⟨-a.num, a.den⟩

def Frac.fabs (a : Frac) : Frac := ⟨|a.num|, a.den⟩

/-- `a^n` for a natural exponent. -/
def Frac.pow (a : Frac) : Nat → Frac
  | 0 => Frac.ofInt 1
  | n + 1 => (Frac.pow a n).mul a

/-- Boolean `<` (valid for positive denominators, which every value built
by the operations above has). -/
def Frac.blt (a b : Frac) : Bool := a.num * b.den < b.num * a.den

/-- Boolean `≤`. -/
def Frac.ble (a b : Frac) : Bool := a.num * b.den ≤ b.num * a.den

/-- Boolean value equality (cross multiplication). -/
def Frac.beq (a b : Frac) : Bool := a.num * b.den == b.num * a.den

/-- The rational value represented by a `Frac`; used in specifications and
proofs only. -/
def Frac.val (a : Frac) : ℚ := (a.num : ℚ) / (a.den : ℚ)

/-!
### String and dictionary primitives

Python strings are handled through their character lists (`String.data`),
because the kernel can evaluate character-list functions but not the
iterator-based built-in `String` searching functions.  Python `dict`s are
insertion-ordered association lists: assignment to an existing key replaces
its value in place, assignment to a fresh key appends.
-/

/-- Python `str.lower` restricted to the characters that actually occur in
this repository's data: ASCII capitals, `Δ` and (non-final) `Σ`.  (CPython
performs full Unicode lowercasing; on every string appearing in the
registry, the equation bank and the inputs reasoned about below the two
agree.) -/
def pyLowerChar (ch : Char) : Char :=
  if 65 ≤ ch.toNat ∧ ch.toNat ≤ 90 then Char.ofNat (ch.toNat + 32)
  else if ch = 'Δ' then 'δ'
  else if ch = 'Σ' then 'σ'
  else ch

def pyLower (s : String) : String := ⟨s.data.map pyLowerChar⟩

/-- Whitespace characters relevant to Python `str.strip` on this data. -/
def isPySpace (c : Char) : Bool :=
  c = ' ' || c = '\t' || c = '\n' || c = '\r'

/-- Python `str.strip()`. -/
def pyStrip (s : String) : String :=
  ⟨((s.data.dropWhile isPySpace).reverse.dropWhile isPySpace).reverse⟩

/-- Python code-point comparison `a < b` on strings, as a Boolean
lexicographic comparison of character lists. -/
def chLt : List Char → List Char → Bool
  | [], [] => false
  | [], _ :: _ => true
  | _ :: _, [] => false
  | a :: as, b :: bs =>
      if a.toNat < b.toNat then true
      else if b.toNat < a.toNat then false
      else chLt as bs

def pyStrLt (a b : String) : Bool := chLt a.data b.data

def pyStrLe (a b : String) : Bool := !(pyStrLt b a)

/-- Dictionary lookup (`d[k]` / `d.get(k)`). -/
def dget {β : Type} : List (String × β) → String → Option β
  | [], _ => none
  | (k, v) :: t, q => if k = q then some v else dget t q

/-- Dictionary assignment `d[k] = v`: replace in place, else append. -/
def dset {β : Type} : List (String × β) → String → β → List (String × β)
  | [], q, w => [(q, w)]
  | (k, v) :: t, q, w => if k = q then (q, w) :: t else (k, v) :: dset t q w

/-- Python `dict.update`. -/
def dUpdate {β : Type} (d : List (String × β)) (e : List (String × β)) :
    List (String × β) :=
  e.foldl (fun acc kv => dset acc kv.1 kv.2) d

def dKeys {β : Type} (d : List (String × β)) : List String := d.map (·.1)

def dHas {β : Type} (d : List (String × β)) (k : String) : Bool :=
  (dget d k).isSome

/-- `d.get(k, dflt)`. -/
def dGetD {β : Type} (d : List (String × β)) (k : String) (dflt : β) : β :=
  (dget d k).getD dflt

/-!
### The variable registry (`aliases.py`, `VARIABLES`)

Transcribed in Python insertion order (the initial literal followed by the
successive `VARIABLES.update` calls).  Unit choices are `(unit, factor,
offset)` triples with `base = value·factor + offset`.  Descriptions are
omitted (no claim mentions them).  The `deg` factor `math.pi/180` is
transcribed with the 16-digit decimal value of the float `math.pi`; only
its nonzeroness matters to any claim.
-/

structure VarMeta where
  vname : String
  aliases : List String
  base : String
  choices : List (String × Frac × Frac)
deriving DecidableEq, Repr

def q0 : Frac := Frac.ofInt 0
def q1 : Frac := Frac.ofInt 1

/-- A unit choice with zero offset. -/
def uf (s : String) (f : Frac) : String × Frac × Frac := (s, f, q0)

def e3 : Frac := Frac.ofInt 1000
def e5 : Frac := Frac.ofInt 100000
def e6p : Frac := Frac.ofInt 1000000
def e9p : Frac := Frac.ofInt 1000000000
def e12p : Frac := Frac.ofInt 1000000000000
def em3 : Frac := Frac.dec 1 3
def em6 : Frac := Frac.dec 1 6
def em9 : Frac := Frac.dec 1 9
def em10 : Frac := Frac.dec 1 10
def em12 : Frac := Frac.dec 1 12
def atmF : Frac := Frac.ofInt 101325
def psiF : Frac := Frac.dec 6894757293 6
def eVF : Frac := Frac.dec 1602176634 28
def keVF : Frac := Frac.dec 1602176634 25
def e10p : Frac := Frac.ofInt 10000000000
def degF : Frac := (Frac.dec 3141592653589793 15).div (Frac.ofInt 180)

def pressure5 : List (String × Frac × Frac) :=
  [uf "Pa" q1, uf "kPa" e3, uf "bar" e5, uf "atm" atmF, uf "psi" psiF]

def pressure4 : List (String × Frac × Frac) :=
  [uf "Pa" q1, uf "kPa" e3, uf "bar" e5, uf "atm" atmF]

def volume4 : List (String × Frac × Frac) :=
  [uf "m³" q1, uf "L" em3, uf "mL" em6, uf "cm³" em6]

def mol2 : List (String × Frac × Frac) := [uf "mol" q1, uf "mmol" em3]

def jmol2 : List (String × Frac × Frac) := [uf "J/mol" q1, uf "kJ/mol" e3]

def jmolK2 : List (String × Frac × Frac) :=
  [uf "J/(mol·K)" q1, uf "kJ/(mol·K)" e3]

def unitless : List (String × Frac × Frac) := [uf "" q1]

def length4 : List (String × Frac × Frac) :=
  [uf "m" q1, uf "nm" em9, uf "Å" em10, uf "pm" em12]

def recip3 : List (String × Frac × Frac) :=
  [uf "1/m" q1, uf "Å⁻¹" e10p, uf "1/Å" e10p]

def angle2 : List (String × Frac × Frac) := [uf "rad" q1, uf "deg" degF]

def joule2 : List (String × Frac × Frac) := [uf "J" q1, uf "kJ" e3]

def kkgmol : List (String × Frac × Frac) := [uf "K·kg/mol" q1]

def VARIABLES_c1 : List (String × VarMeta) := [
  ("Q", ⟨"heat (energy)", ["q", "heat", "energy"], "J",
    [uf "J" q1, uf "kJ" e3, uf "cal" (Frac.dec 4184 3), uf "kcal" (Frac.ofInt 4184)]⟩),
  ("m", ⟨"mass", ["m", "mass"], "kg", [uf "kg" q1, uf "g" em3]⟩),
  ("c", ⟨"specific heat capacity", ["c", "specific heat", "specificheat", "shc"],
    "J/(kg·K)",
    [uf "J/(kg·K)" q1, uf "J/(g·K)" e3, uf "cal/(g·°C)" (Frac.ofInt 4184)]⟩),
  ("ΔT", ⟨"temperature change",
    ["deltat", "delta_t", "dt", "dtemp", "delta temp", "Δt", "deltatemp",
     "deltatemperature", "deltaT", "delta temperature"], "K",
    [uf "K" q1, uf "°C" q1]⟩),
  ("p", ⟨"pressure", ["p", "pressure", "pres", "press"], "Pa", pressure5⟩),
  ("V", ⟨"volume", ["v", "vol", "volume"], "m³", volume4⟩),
  ("n", ⟨"amount (moles)", ["n", "moles", "amount", "mol"], "mol", mol2⟩),
  ("R", ⟨"gas constant", ["r", "gas constant", "gasconstant", "rgas"], "J/(mol·K)",
    [uf "J/(mol·K)" q1, uf "L·atm/(mol·K)" atmF]⟩),
  ("T", ⟨"temperature", ["t", "temp", "temperature"], "K",
    [uf "K" q1, ("°C", q1, Frac.dec 27315 2)]⟩),
  ("ρ", ⟨"density", ["rho", "density", "ϱ", "dens"], "kg/m³",
    [uf "kg/m³" q1, uf "g/mL" e3, uf "g/cm³" e3]⟩),
  ("c_m", ⟨"molarity (concentration)",
    ["molarity", "concentration", "cm", "c_m", "conc"], "mol/L",
    [uf "mol/L" q1, uf "mmol/L" em3]⟩),
  ("p1", ⟨"initial pressure", ["p1", "p_1", "p initial", "p init"], "Pa", pressure5⟩)]

def VARIABLES_c2 : List (String × VarMeta) := [
  ("v1", ⟨"initial volume", ["v1", "v_1", "v initial", "v init"], "m³", volume4⟩),
  ("p2", ⟨"final pressure", ["p2", "p_2", "p final"], "Pa", pressure5⟩),
  ("v2", ⟨"final volume", ["v2", "v_2", "v final"], "m³", volume4⟩),
  ("p_total", ⟨"total pressure",
    ["p_total", "ptotal", "p tot", "total pressure", "Ptot"], "Pa", pressure5⟩),
  ("pA", ⟨"partial pressure (A)", ["pa", "pA", "partial pressure a", "p_A"],
    "Pa", pressure5⟩),
  ("pB", ⟨"partial pressure (B)", ["pb", "pB", "partial pressure b", "p_B"],
    "Pa", pressure5⟩),
  ("pC", ⟨"partial pressure (C)", ["pc", "pC", "partial pressure c", "p_C"],
    "Pa", pressure5⟩),
  ("y_i", ⟨"mole fraction (i)", ["y", "yi", "y_i", "mole fraction", "molefraction"],
    "", unitless⟩),
  ("n_i", ⟨"component moles (i)", ["ni", "n_i", "component moles", "moles i"],
    "mol", mol2⟩),
  ("n_total", ⟨"total moles", ["ntotal", "n_total", "total moles", "sum moles"],
    "mol", mol2⟩),
  ("ΔH°rxn", ⟨"standard reaction enthalpy",
    ["deltaHrxn", "ΔHrxn", "ΔH°", "reaction enthalpy", "dHrxn", "del H rxn"],
    "J/mol", jmol2⟩),
  ("ΔS°rxn", ⟨"standard reaction entropy",
    ["deltaSrxn", "ΔSrxn", "reaction entropy", "dSrxn"], "J/(mol·K)", jmolK2⟩)]

def VARIABLES_c3 : List (String × VarMeta) := [
  ("ΔG°rxn", ⟨"standard reaction Gibbs energy",
    ["deltaGrxn", "ΔGrxn", "reaction gibbs", "dGrxn", "ΔG°"], "J/mol", jmol2⟩),
  ("ΔH°f", ⟨"standard enthalpy of formation",
    ["deltaHf", "ΔHf", "formation enthalpy", "dHf", "ΔH°f"], "J/mol", jmol2⟩),
  ("ΔG°f", ⟨"standard Gibbs energy of formation",
    ["deltaGf", "ΔGf", "formation gibbs", "dGf", "ΔG°f"], "J/mol", jmol2⟩),
  ("S°", ⟨"standard molar entropy",
    ["Sstd", "Sdeg", "standard entropy", "molar entropy"], "J/(mol·K)", jmolK2⟩),
  ("sum_Hf_prod", ⟨"ΣνΔH°f(products)",
    ["sum hf products", "Σ hf prod", "Hf sum prod"], "J/mol", jmol2⟩),
  ("sum_Hf_react", ⟨"ΣνΔH°f(reactants)",
    ["sum hf reactants", "Σ hf react", "Hf sum react"], "J/mol", jmol2⟩),
  ("sum_Gf_prod", ⟨"ΣνΔG°f(products)",
    ["sum gf products", "Σ gf prod", "Gf sum prod"], "J/mol", jmol2⟩),
  ("sum_Gf_react", ⟨"ΣνΔG°f(reactants)",
    ["sum gf reactants", "Σ gf react", "Gf sum react"], "J/mol", jmol2⟩),
  ("sum_S_prod", ⟨"ΣνS°(products)",
    ["sum S products", "Σ S prod", "entropy sum prod"], "J/(mol·K)", jmolK2⟩),
  ("sum_S_react", ⟨"ΣνS°(reactants)",
    ["sum S reactants", "Σ S react", "entropy sum react"], "J/(mol·K)", jmolK2⟩),
  ("K", ⟨"equilibrium constant", ["equilibrium constant", "K_eq", "Keq"],
    "", unitless⟩),
  ("lnK", ⟨"natural log of K", ["ln K", "log K", "log_e K"], "", unitless⟩)]

def VARIABLES_c4 : List (String × VarMeta) := [
  ("ξ", ⟨"extent of reaction", ["xi", "extent", "n_rxn", "n reaction"],
    "mol", mol2⟩),
  ("ν_i", ⟨"stoichiometric coefficient (i)",
    ["nu_i", "nu", "stoich i", "stoichiometric coefficient"], "", unitless⟩),
  ("q_rxn", ⟨"heat of reaction (system)",
    ["q_rxn", "q(reaction)", "reaction heat", "q reaction", "q"], "J", joule2⟩),
  ("ΔH_vap", ⟨"enthalpy of vaporization",
    ["Hvap", "deltaHvap", "ΔHvap", "enthalpy vaporization"], "J/mol", jmol2⟩),
  ("ΔH_fus", ⟨"enthalpy of fusion",
    ["Hfus", "deltaHfus", "ΔHfus", "enthalpy fusion"], "J/mol", jmol2⟩),
  ("ΔH°f_gas", ⟨"standard enthalpy of formation (gas)",
    ["Hf gas", "deltaHf gas", "ΔHf(g)", "ΔH°f(g)", "Hf_gas"], "J/mol", jmol2⟩),
  ("ΔH°f_liq", ⟨"standard enthalpy of formation (liquid)",
    ["Hf liq", "deltaHf liq", "ΔHf(l)", "ΔH°f(l)", "Hf_liq"], "J/mol", jmol2⟩),
  ("ν_freq", ⟨"frequency", ["nu", "v_freq", "freq", "frequency", "f"], "Hz",
    [uf "Hz" q1, uf "kHz" e3, uf "MHz" e6p, uf "GHz" e9p, uf "THz" e12p]⟩),
  ("λ", ⟨"wavelength", ["lambda", "wavelength", "lam"], "m", length4⟩),
  ("h_planck", ⟨"Planck constant", ["h", "planck", "planck constant"], "J·s",
    [uf "J·s" q1]⟩),
  ("c0", ⟨"speed of light", ["c", "lightspeed", "speed of light"], "m/s",
    [uf "m/s" q1]⟩),
  ("E_ph", ⟨"photon energy", ["E", "E_ph", "photon energy", "energy photon"], "J",
    [uf "J" q1, uf "kJ" e3, uf "eV" eVF, uf "keV" keVF]⟩)]

def VARIABLES_c5 : List (String × VarMeta) := [
  ("Z", ⟨"atomic number (Z)", ["Z", "atomic number", "charge number"],
    "", unitless⟩),
  ("n1", ⟨"lower principal quantum number", ["n1", "n lower", "n initial"],
    "", unitless⟩),
  ("n2", ⟨"upper principal quantum number", ["n2", "n upper", "n final"],
    "", unitless⟩),
  ("ΔE", ⟨"transition energy", ["dE", "deltaE", "transition energy"], "J",
    [uf "J" q1, uf "eV" eVF, uf "keV" keVF]⟩),
  ("R∞", ⟨"Rydberg constant (∞ mass)", ["Rinf", "Rydberg", "Rydberg constant"],
    "1/m", [uf "1/m" q1]⟩),
  ("theta", ⟨"Bragg angle θ", ["θ", "theta", "bragg angle", "th"], "rad", angle2⟩),
  ("two_theta", ⟨"diffraction angle 2θ", ["2θ", "2theta", "two theta"],
    "rad", angle2⟩),
  ("d_spacing", ⟨"interplanar spacing d", ["d", "d-spacing", "interplanar spacing"],
    "m", length4⟩),
  ("a_cubic", ⟨"cubic lattice parameter a",
    ["a", "lattice parameter", "lattice constant"], "m", length4⟩),
  ("n_bragg", ⟨"Bragg order", ["order", "bragg order", "n_bragg"], "", unitless⟩),
  ("h_mi", ⟨"Miller index h", ["h_mi", "miller h", "h(index)"], "", unitless⟩),
  ("k_mi", ⟨"Miller index k", ["k_mi", "miller k", "k(index)"], "", unitless⟩)]

def VARIABLES_c6 : List (String × VarMeta) := [
  ("l_mi", ⟨"Miller index l", ["l_mi", "miller l", "l(index)"], "", unitless⟩),
  ("q_scat", ⟨"scattering vector magnitude q", ["q", "q_scat", "scattering vector"],
    "1/m", recip3⟩),
  ("s_recip", ⟨"reciprocal spacing s = 1/d", ["s", "s_recip", "1/d", "reciprocal spacing"],
    "1/m", recip3⟩),
  ("x_i_liq", ⟨"mole fraction (liquid, i)",
    ["x_i", "x(liq)", "mole fraction liquid", "x"], "", unitless⟩),
  ("y_i_gas", ⟨"mole fraction (gas, i)",
    ["y_i", "y(gas)", "mole fraction gas", "y"], "", unitless⟩),
  ("P_sat_i", ⟨"pure-component vapor pressure (i)",
    ["P*_i", "Psat", "Psat_i", "vapour pressure i"], "Pa", pressure4⟩),
  ("p_i", ⟨"partial pressure (i)", ["p_i", "partial pressure i"], "Pa", pressure4⟩),
  ("P_vap_total", ⟨"total vapor pressure (mixture)",
    ["P_total_vap", "Pt,vap", "vapour pressure total"], "Pa", pressure4⟩),
  ("kH_Px", ⟨"Henry constant (p = kH·x)",
    ["kH", "k_H", "henry constant", "kH(px)"], "Pa", pressure4⟩),
  ("kH_cP", ⟨"Henry constant (c = kH·p)",
    ["kH(cp)", "henry c=p*k", "solubility constant"], "mol/(m³·Pa)",
    [uf "mol/(m³·Pa)" q1, uf "mol/(L·atm)" (q1.div (e3.mul atmF))]⟩),
  ("i_vH", ⟨"van ’t Hoff factor",
    ["i", "vant hoff factor", "van\x27t hoff factor"], "", unitless⟩),
  ("m_molal", ⟨"molality", ["molality", "m (molal)", "b"], "mol/kg",
    [uf "mol/kg" q1]⟩)]

def VARIABLES_c7 : List (String × VarMeta) := [
  ("Kb", ⟨"ebullioscopic constant", ["Kb", "K_b", "ebullioscopic"],
    "K·kg/mol", kkgmol⟩),
  ("Kf", ⟨"cryoscopic constant", ["Kf", "K_f", "cryoscopic"], "K·kg/mol", kkgmol⟩),
  ("ΔTb", ⟨"boiling-point elevation", ["delta Tb", "ΔT_b"], "K",
    [uf "K" q1, uf "°C" q1]⟩),
  ("ΔTf", ⟨"freezing-point depression", ["delta Tf", "ΔT_f"], "K",
    [uf "K" q1, uf "°C" q1]⟩),
  ("π_osm", ⟨"osmotic pressure", ["pi", "osmotic pressure", "π"], "Pa", pressure4⟩),
  ("c_total_ions", ⟨"total ion concentration", ["ion total conc", "total ions"],
    "mol/L", [uf "mol/L" q1, uf "mmol/L" em3]⟩),
  ("r_part", ⟨"particle radius", ["radius", "particle radius", "r_part", "r_sphere"],
    "m", length4⟩),
  ("M_molar", ⟨"molar mass", ["M", "molar mass", "MW", "Mr", "molecular weight"],
    "kg/mol", [uf "kg/mol" q1, uf "g/mol" em3]⟩),
  ("N_A", ⟨"Avogadro constant", ["NA", "N_A", "avogadro", "avogadro constant"],
    "1/mol", [uf "1/mol" q1]⟩),
  ("N", ⟨"number of particles", ["N", "atoms", "molecules", "count", "# particles"],
    "", unitless⟩)]

/-- The registry, in declaration order (concatenation of the chunks
above, which exist only to keep elaboration cheap). -/
def VARIABLES : List (String × VarMeta) :=
  VARIABLES_c1 ++ VARIABLES_c2 ++ VARIABLES_c3 ++ VARIABLES_c4 ++ VARIABLES_c5 ++ VARIABLES_c6 ++ VARIABLES_c7

/-- `VARIABLES.get(canonical, {}).get("units", {}).get("choices", {})`. -/
def unitChoices (canonical : String) : List (String × Frac × Frac) :=
  match dget VARIABLES canonical with
  | some meta => meta.choices
  | none => []

/-- `aliases.convert_to_base`: `value*factor + offset`; a falsy (`None` or
empty) or undeclared unit is a no-op. -/
def convert_to_base (canonical : String) (value : Frac) (unit : Option String) :
    Frac :=
  match unit with
  | none => value
  | some u =>
      if u = "" then value
      else
        match dget (unitChoices canonical) u with
        | none => value
        | some (f, off) => (value.mul f).add off

/-- `aliases.convert_from_base`: inverse transform `(base - offset)/factor`. -/
def convert_from_base (canonical : String) (baseValue : Frac)
    (unit : Option String) : Frac :=
  match unit with
  | none => baseValue
  | some u =>
      if u = "" then baseValue
      else
        match dget (unitChoices canonical) u with
        | none => baseValue
        | some (f, off) => (baseValue.sub off).div f

/-!
### Alias table and `normalize_var` (`aliases.py`)

`_ALIAS_TO_CANON` is built by iterating the registry; a later entry's
alias overwrites an earlier binding of the same lowercased string.  The
fuzzy branch uses `difflib.get_close_matches`, which we model below
(standard library code, embedded without the `autojunk` heuristic, which
only activates for query strings of 200 or more characters).
-/

def aliasEntryKeys (e : String × VarMeta) : List String :=
  e.2.aliases.map pyLower ++ [pyLower e.2.vname, pyLower e.1]

def insertAliasEntry (d : List (String × String)) (e : String × VarMeta) :
    List (String × String) :=
  (aliasEntryKeys e).foldl (fun acc k => dset acc k e.1) d

def ALIAS_TO_CANON : List (String × String) :=
  VARIABLES.foldl insertAliasEntry []

/-- Positions (ascending) of character `c` in `b` (`SequenceMatcher.b2j`). -/
def bPositions (b : List Char) (c : Char) : List Nat :=
  (List.range b.length).filter (fun j => b.getD j ' ' = c)

/-- Inner loop of `find_longest_match`: walk the positions of `a[i]` in `b`,
updating the new `j2len` row and the current best block.  Mirrors the
`for j in b2j[a[i]]` loop with its `continue`/`break`. -/
def flmInner (blo bhi : Nat) (i : Nat) (j2len : Nat → Nat) :
    List Nat → (Nat → Nat) → Nat × Nat × Nat → ((Nat → Nat) × (Nat × Nat × Nat))
  | [], newRow, best => (newRow, best)
  | j :: js, newRow, best =>
      if j < blo then flmInner blo bhi i j2len js newRow best
      else if bhi ≤ j then (newRow, best)
      else
        let k := (if j = 0 then 0 else j2len (j - 1)) + 1
        let newRow' : Nat → Nat := fun j' => if j' = j then k else newRow j'
        let best' := if best.2.2 < k then (i - k + 1, j - k + 1, k) else best
        flmInner blo bhi i j2len js newRow' best'

/-- Outer loop of `find_longest_match` over `i ∈ [alo, ahi)`. -/
def flmOuter (a b : List Char) (blo bhi : Nat) :
    List Nat → (Nat → Nat) → Nat × Nat × Nat → Nat × Nat × Nat
  | [], _, best => best
  | i :: is, j2len, best =>
      let r := flmInner blo bhi i j2len (bPositions b (a.getD i ' '))
        (fun _ => 0) best
      flmOuter a b blo bhi is r.1 r.2

/-- Extend the best block backwards while preceding characters match. -/
def flmExtBack (a b : List Char) (alo blo : Nat) :
    Nat → Nat × Nat × Nat → Nat × Nat × Nat
  | 0, best => best
  | fuel + 1, (bi, bj, bs) =>
      if alo < bi ∧ blo < bj ∧ a.getD (bi - 1) ' ' = b.getD (bj - 1) '!' then
        flmExtBack a b alo blo fuel (bi - 1, bj - 1, bs + 1)
      else (bi, bj, bs)

/-- Extend the best block forwards while following characters match. -/
def flmExtFwd (a b : List Char) (ahi bhi : Nat) :
    Nat → Nat × Nat × Nat → Nat × Nat × Nat
  | 0, best => best
  | fuel + 1, (bi, bj, bs) =>
      if bi + bs < ahi ∧ bj + bs < bhi ∧ a.getD (bi + bs) ' ' = b.getD (bj + bs) '!' then
        flmExtFwd a b ahi bhi fuel (bi, bj, bs + 1)
      else (bi, bj, bs)

/-- `SequenceMatcher.find_longest_match` (no junk). -/
def findLongestMatch (a b : List Char) (alo ahi blo bhi : Nat) :
    Nat × Nat × Nat :=
  let best := flmOuter a b blo bhi ((List.range ahi).drop alo) (fun _ => 0)
    (alo, blo, 0)
  let best := flmExtBack a b alo blo (best.1 + best.2.1 + 1) best
  flmExtFwd a b ahi bhi (ahi + bhi + 1) best

/-- Total size of all matching blocks (the quantity `ratio` divides by the
total length); computed by the same divide-and-conquer recursion as
`get_matching_blocks`. -/
def matchingSize (a b : List Char) : Nat → Nat × Nat × Nat × Nat → Nat
  | 0, _ => 0
  | fuel + 1, (alo, ahi, blo, bhi) =>
      let r := findLongestMatch a b alo ahi blo bhi
      let k := r.2.2
      if k = 0 then 0
      else
        matchingSize a b fuel (alo, r.1, blo, r.2.1) + k +
          matchingSize a b fuel (r.1 + k, ahi, r.2.1 + k, bhi)

/-- `_calculate_ratio(matches, length)`. -/
def calcRatio (mtc length : Nat) : Frac :=
  if length = 0 then Frac.ofInt 1
  else Frac.normMk (2 * (mtc : Int)) (length : Int)

/-- `SequenceMatcher(None, a, b).ratio()`. -/
def seqRatio (a b : List Char) : Frac :=
  calcRatio (matchingSize a b (a.length + b.length + 1)
    (0, a.length, 0, b.length)) (a.length + b.length)

def countIn (l : List Char) (c : Char) : Nat := (l.filter (· = c)).length

/-- `SequenceMatcher.quick_ratio()`: multiset intersection of characters. -/
def quickRatio (a b : List Char) : Frac :=
  calcRatio ((a.eraseDups.map (fun c => min (countIn a c) (countIn b c))).sum)
    (a.length + b.length)

/-- `SequenceMatcher.real_quick_ratio()`. -/
def realQuickRatio (a b : List Char) : Frac :=
  calcRatio (min a.length b.length) (a.length + b.length)

/-- `difflib.get_close_matches(word, possibilities, n=1, cutoff)`: the best
candidate by `(ratio, candidate)` tuple order among those passing the
cutoff tests, or `none`. -/
def getCloseMatch (word : String) (possibilities : List String)
    (cutoff : Frac) : Option String :=
  let scored := possibilities.filterMap (fun x =>
    let xa := x.data
    let wb := word.data
    if cutoff.ble (realQuickRatio xa wb) && cutoff.ble (quickRatio xa wb) &&
        cutoff.ble (seqRatio xa wb) then
      some (seqRatio xa wb, x)
    else none)
  (scored.foldl (fun best p =>
    match best with
    | none => some p
    | some q =>
        if q.1.blt p.1 || (q.1.beq p.1 && pyStrLt q.2 p.2) then some p
        else some q) none).map (·.2)

/-- `_startswith_rank(query, target)`is `0` when `target` starts with
`query` (else `-1`); here as a Boolean prefix test on character lists. -/
def begWith : List Char → List Char → Bool
  | _, [] => true
  | [], _ :: _ => false
  | a :: as, b :: bs => a = b && begWith as bs

/-- The `starts` accumulation in `normalize_var`: canonicals whose name
(or, failing that, first alias) starts with the query; rank is always 0. -/
def startsList (key : String) : List String :=
  VARIABLES.filterMap (fun e =>
    if begWith (pyLower e.2.vname).data key.data then some e.1
    else if e.2.aliases.any (fun a => begWith (pyLower a).data key.data) then
      some e.1
    else none)

/-- `starts.sort(key=(rank, canon)); starts[0][1]`: all ranks are 0, so the
minimum is the lexicographically smallest canonical. -/
def minCanon : List String → Option String
  | [] => none
  | c :: cs => some (cs.foldl (fun m x => if pyStrLt x m then x else m) c)

inductive PyErr where
  | keyError
deriving DecidableEq, Repr

/-- `aliases.normalize_var`.  The only syntactically fallible operation is
the final `_ALIAS_TO_CANON[best[0]]` subscript, modelled by `Except`. -/
def normalize_var (name : String) : Except PyErr String :=
  let s := pyStrip name
  if s = "" then .ok s
  else
    let key := pyLower s
    match dget ALIAS_TO_CANON key with
    | some c => .ok c
    | none =>
        match minCanon (startsList key) with
        | some c => .ok c
        | none =>
            match getCloseMatch key (dKeys ALIAS_TO_CANON)
                (Frac.normMk 3 4) with
            | some b =>
                match dget ALIAS_TO_CANON b with
                | some c => .ok c
                | none => .error .keyError
            | none => .ok s

/-!
### Constants, equation bank, matcher and solver
(`constants.py`, `equations.py`, `chem_helper.py`)

Equation records keep the fields the claims are about: key, display name,
declared variable list, and the keys of the per-target `solve` table (the
solver bodies are numeric lambdas; only their presence decides
applicability/solvability, and `solve_for` is modelled generically over an
arbitrary solver table).
-/

def CONSTANTS : List (String × Frac) := [
  ("R", Frac.dec 8314462618 9),
  ("h", Frac.dec 662607015 42),
  ("c", Frac.ofInt 299792458),
  ("e", Frac.dec 1602176634 28),
  ("R∞", Frac.dec 1097373156816 5),
  ("E_H", Frac.dec 13605693122994 12),
  ("λ_CuKα", Frac.dec 154060 15),
  ("λ_CuKα1", Frac.dec 154059 15),
  ("λ_CuKα2", Frac.dec 154443 15),
  ("λ_MoKα", Frac.dec 7093 14)]

structure Equation where
  key : String
  ename : String
  evars : List String
  solveKeys : List String
deriving DecidableEq, Repr

def EQUATIONS : List Equation := [
  ⟨"specific_heat", "Specific Heat Capacity", ["Q", "m", "c", "ΔT"],
    ["Q", "m", "c", "ΔT"]⟩,
  ⟨"ideal_gas_law", "Ideal Gas Law", ["p", "V", "n", "R", "T"],
    ["p", "V", "n", "R", "T"]⟩,
  ⟨"density", "Density", ["ρ", "m", "V"], ["ρ", "m", "V"]⟩,
  ⟨"sphere_volume", "Sphere volume", ["V", "r_part"], ["V", "r_part"]⟩,
  ⟨"mass_moles_molar_mass", "Mass–moles–molar mass", ["m", "n", "M_molar"],
    ["m", "n", "M_molar"]⟩,
  ⟨"particle_count", "Particle count", ["N", "n", "N_A"], ["N", "n", "N_A"]⟩,
  ⟨"particle_count_from_radius", "Atoms in spherical particle",
    ["N", "ρ", "r_part", "M_molar", "N_A"],
    ["N", "r_part", "ρ", "M_molar", "N_A"]⟩,
  ⟨"molarity", "Molarity", ["c_m", "n", "V"], ["c_m", "n", "V"]⟩,
  ⟨"boyle", "Boyle\x27s Law (isothermal)", ["p1", "v1", "p2", "v2"],
    ["p1", "v1", "p2", "v2"]⟩,
  ⟨"dalton_partial", "Dalton\x27s Law (partial pressure)",
    ["p_i", "y_i", "p_total"], ["p_i", "y_i", "p_total"]⟩,
  ⟨"mole_fraction", "Mole Fraction", ["y_i", "n_i", "n_total"],
    ["y_i", "n_i", "n_total"]⟩,
  ⟨"dalton_sum2", "Dalton\x27s Law (sum of partials, 2 components)",
    ["p_total", "pA", "pB"], ["p_total", "pA", "pB"]⟩,
  ⟨"dalton_sum3", "Dalton\x27s Law (sum of partials, 3 components)",
    ["p_total", "pA", "pB", "pC"], ["p_total", "pA", "pB", "pC"]⟩,
  ⟨"gibbs_standard", "Gibbs relation (standard)",
    ["ΔG°rxn", "ΔH°rxn", "T", "ΔS°rxn"], ["ΔG°rxn", "ΔH°rxn", "T", "ΔS°rxn"]⟩,
  ⟨"equilibrium_dg", "Equilibrium ↔ Gibbs (standard)",
    ["ΔG°rxn", "K", "R", "T"], ["ΔG°rxn", "K"]⟩,
  ⟨"rxn_enthalpy_from_formation", "Reaction enthalpy from formation data",
    ["ΔH°rxn", "sum_Hf_prod", "sum_Hf_react"],
    ["ΔH°rxn", "sum_Hf_prod", "sum_Hf_react"]⟩,
  ⟨"rxn_entropy_from_S", "Reaction entropy from standard molar entropies",
    ["ΔS°rxn", "sum_S_prod", "sum_S_react"],
    ["ΔS°rxn", "sum_S_prod", "sum_S_react"]⟩,
  ⟨"rxn_gibbs_from_formation", "Reaction Gibbs from formation data",
    ["ΔG°rxn", "sum_Gf_prod", "sum_Gf_react"],
    ["ΔG°rxn", "sum_Gf_prod", "sum_Gf_react"]⟩,
  ⟨"heat_from_extent", "Heat from reaction extent", ["q", "ξ", "ΔH°rxn"],
    ["q", "ξ", "ΔH°rxn"]⟩,
  ⟨"extent_from_component", "Extent from component moles", ["ξ", "n_i", "ν_i"],
    ["ξ", "n_i", "ν_i"]⟩,
  ⟨"vap_from_formation", "Enthalpy of vaporization from formation data",
    ["ΔH_vap", "ΔH°f_gas", "ΔH°f_liq"], ["ΔH_vap", "ΔH°f_gas", "ΔH°f_liq"]⟩,
  ⟨"enthalpy_scaling", "Scale reaction enthalpy by factor",
    ["ΔH°rxn_scaled", "ΔH°rxn", "scale_n"],
    ["ΔH°rxn_scaled", "ΔH°rxn", "scale_n"]⟩,
  ⟨"enthalpy_reverse", "Reverse reaction enthalpy", ["ΔH°rxn_rev", "ΔH°rxn"],
    ["ΔH°rxn_rev", "ΔH°rxn"]⟩,
  ⟨"combustion_energy", "Energy released by combustion", ["q", "n", "ΔG°rxn"],
    ["q", "n", "ΔG°rxn"]⟩,
  ⟨"planck_hnu", "Photon energy from frequency", ["E_ph", "h_planck", "ν_freq"],
    ["E_ph", "ν_freq", "h_planck"]⟩,
  ⟨"wave_speed", "Wave speed relation", ["c0", "λ", "ν"], ["c0", "λ", "ν"]⟩,
  ⟨"planck_hc_over_lambda", "Photon energy from wavelength",
    ["E_ph", "h_planck", "c0", "λ"], ["E_ph", "λ"]⟩,
  ⟨"rydberg_lambda", "Hydrogen-like wavelength (Rydberg)",
    ["λ", "R∞", "Z", "n1", "n2"], ["λ"]⟩,
  ⟨"bohr_transition", "Hydrogen-like transition energy (Bohr)",
    ["ΔE", "Z", "n1", "n2", "E_H"], ["ΔE"]⟩,
  ⟨"bragg", "Bragg’s law", ["n_bragg", "λ", "d_spacing", "theta"],
    ["n_bragg", "λ", "d_spacing", "theta"]⟩,
  ⟨"bragg_2theta", "Bragg with 2θ", ["n_bragg", "λ", "d_spacing", "two_theta"],
    ["d_spacing", "λ", "n_bragg", "two_theta"]⟩,
  ⟨"cubic_d_hkl", "Cubic: d from a and (hkl)",
    ["d_spacing", "a_cubic", "h_mi", "k_mi", "l_mi"], ["d_spacing", "a_cubic"]⟩,
  ⟨"s_from_bragg", "Reciprocal spacing s from Bragg", ["s_recip", "λ", "theta"],
    ["s_recip", "theta", "λ"]⟩,
  ⟨"q_from_bragg", "Scattering vector q", ["q_scat", "λ", "theta"],
    ["q_scat", "theta", "λ"]⟩,
  ⟨"q_s_d_links", "Links: q, s, d", ["q_scat", "s_recip", "d_spacing"],
    ["s_recip", "q_scat", "d_spacing"]⟩,
  ⟨"raoult_2comp", "Raoult’s law (2 components)",
    ["p_i", "x_i_liq", "P_sat_i", "P_vap_total"],
    ["p_i", "x_i_liq", "P_sat_i", "P_vap_total"]⟩,
  ⟨"henry_px", "Henry: p = kH·x", ["p", "kH_Px", "x_i_liq"],
    ["p", "kH_Px", "x_i_liq"]⟩,
  ⟨"henry_cp", "Henry: c = kH·p", ["c_m", "kH_cP", "p"], ["c_m", "kH_cP", "p"]⟩,
  ⟨"osmotic_pressure", "Osmotic pressure (van ’t Hoff)",
    ["π_osm", "i_vH", "c_m", "R", "T"], ["π_osm", "i_vH", "c_m"]⟩,
  ⟨"boiling_elevation", "Boiling-point elevation", ["ΔTb", "i_vH", "Kb", "m_molal"],
    ["ΔTb", "i_vH", "Kb", "m_molal"]⟩,
  ⟨"freezing_depression", "Freezing-point depression",
    ["ΔTf", "i_vH", "Kf", "m_molal"], ["ΔTf", "i_vH", "Kf", "m_molal"]⟩,
  ⟨"total_ion_conc", "Total ion concentration (via i)",
    ["c_total_ions", "i_vH", "c_m"], ["c_total_ions", "i_vH", "c_m"]⟩]

/-- `len(vars_set & known_keys)`: user-known variables of the equation. -/
def overlapUser (eq : Equation) (known : List (String × Frac)) : Nat :=
  (eq.evars.eraseDups.filter (fun v => dHas known v)).length

/-- `sum(1 for v in vars_set if v in CONSTANTS and v not in known_keys)`. -/
def overlapConsts (eq : Equation) (known : List (String × Frac)) : Nat :=
  (eq.evars.eraseDups.filter
    (fun v => dHas CONSTANTS v && !dHas known v)).length

def overlapTotal (eq : Equation) (known : List (String × Frac)) : Nat :=
  overlapUser eq known + overlapConsts eq known

/-- `[v for v in eq["variables"] if v not in known_keys and v not in CONSTANTS]`. -/
def missingOf (eq : Equation) (known : List (String × Frac)) : List String :=
  eq.evars.filter (fun v => !dHas known v && !dHas CONSTANTS v)

/-- `is_solvable`: exactly one unknown and a solver registered for it. -/
def isSolvable (eq : Equation) (missing : List String) : Bool :=
  match missing with
  | [v] => eq.solveKeys.contains v
  | _ => false

/-- The sort key comparison `(-is_solvable, -overlap, name.lower())`
(lexicographic non-strict comparison of Python key tuples). -/
def matchKeyLe (x y : Equation × List String × Nat) : Bool :=
  let sx : Nat := if isSolvable x.1 x.2.1 then 1 else 0
  let sy : Nat := if isSolvable y.1 y.2.1 then 1 else 0
  if sy < sx then true
  else if sx < sy then false
  else if y.2.2 < x.2.2 then true
  else if x.2.2 < y.2.2 then false
  else pyStrLe (pyLower x.1.ename) (pyLower y.1.ename)

/-- `chem_helper.find_applicable_equations`, with each match's overlap kept
(the source drops the overlap on return; see `find_applicable_equations`).
Python's `list.sort` is a stable sort by key; `insertionSort` with the
non-strict key comparison is also stable, hence produces the same list. -/
def find_applicable_full (known : List (String × Frac)) (minOverlap : Nat) :
    List (Equation × List String × Nat) :=
  (EQUATIONS.filterMap (fun eq =>
    let ov := overlapTotal eq known
    if minOverlap ≤ ov then some (eq, missingOf eq known, ov) else none)
  ).insertionSort (fun a b => matchKeyLe a b = true)

/-- `chem_helper.find_applicable_equations` (returned shape `(eq, missing)`). -/
def find_applicable_equations (known : List (String × Frac)) (minOverlap : Nat) :
    List (Equation × List String) :=
  (find_applicable_full known minOverlap).map (fun t => (t.1, t.2.1))

/-- `chem_helper.merged_values`: constants first, user values override. -/
def merged_values (userValues : List (String × Frac)) : List (String × Frac) :=
  dUpdate CONSTANTS userValues

/-- The restriction `{k: v[k] for k in variables if k in v}`. -/
def requiredOf (eqVars : List String) (v : List (String × Frac)) :
    List (String × Frac) :=
  eqVars.filterMap (fun k => (dget v k).map (fun x => (k, x)))

inductive SolveErr where
  | missingSolver
deriving DecidableEq, Repr

/-- `chem_helper.solve_for`, generically over the equation's `solve` table
(whose entries are the numeric solver functions) and declared variable
list.  `if not solver` is the `None`-check: function objects are truthy. -/
def solve_for {α : Type} (solveTab : List (String × (List (String × Frac) → α)))
    (eqVars : List String) (target : String)
    (values : List (String × Frac)) : Except SolveErr α :=
  match dget solveTab target with
  | none => .error .missingSolver
  | some f => .ok (f (requiredOf eqVars (merged_values values)))

/-!
### The reaction parser (`gui.py`, `_parse_reaction`)

`_parse_reaction` normalises the accepted arrow spellings to `->`, splits
once at the first arrow, splits each side on every `+`, and parses each
term with the regex `^\s*(\d*\.?\d*)\s*([A-Za-z0-9()^+\-·_]+)\s*$`
(an unmatched term falls back to the whole term as a species label with an
implicit coefficient 1).  `matchTerm` reproduces the regex including its
backtracking: when the numeric prefix swallows the whole term, the last
digit is given back to the species group.  `float(coef)` fails exactly
when the matched coefficient text is a bare `"."`.
-/

def stripChars (l : List Char) : List Char :=
  ((l.dropWhile isPySpace).reverse.dropWhile isPySpace).reverse

/-- Successive `replace` of `⇌ ↔ ⟷ =` by `->` (all patterns are single
characters and the replacement contains none of them, so one pass is
equivalent). -/
def arrowExpand : List Char → List Char
  | [] => []
  | c :: t =>
      if c = '⇌' ∨ c = '↔' ∨ c = '⟷' ∨ c = '=' then
        '-' :: '>' :: arrowExpand t
      else c :: arrowExpand t

/-- `"->" in s`. -/
def hasArrowSub : List Char → Bool
  | [] => false
  | '-' :: '>' :: _ => true
  | _ :: t => hasArrowSub t

/-- `s.split("->", 1)` (both parts; assumes the arrow is present, else the
second component is empty — the caller checks first). -/
def splitArrow : List Char → List Char × List Char
  | [] => ([], [])
  | '-' :: '>' :: t => ([], t)
  | c :: t =>
      let r := splitArrow t
      (c :: r.1, r.2)

/-- `side.split("+")` (every occurrence, keeping empty pieces). -/
def splitPlus : List Char → List (List Char)
  | [] => [[]]
  | c :: t =>
      let r := splitPlus t
      if c = '+' then [] :: r
      else
        match r with
        | [] => [[c]]
        | h :: rest => (c :: h) :: rest

def speciesClass (c : Char) : Bool :=
  c.isAlpha || c.isDigit || c = '(' || c = ')' || c = '^' || c = '+' ||
    c = '-' || c = '·' || c = '_'

/-- The term regex `^\s*(\d*\.?\d*)\s*([A-Za-z0-9()^+\-·_]+)\s*$` applied
to a stripped term, returning `(coefficient text, species text)`, or
`none` when the regex does not match.  The maximal numeric prefix is
preferred; if it consumes the whole term with no intervening space and
ends in a digit, that digit is given back as the species (regex
backtracking, e.g. `"23"` parses as coefficient `"2"`, species `"3"`). -/
def matchTerm (t : List Char) : Option (List Char × List Char) :=
  let d1 := t.takeWhile Char.isDigit
  let r1 := t.dropWhile Char.isDigit
  let dotPart : List Char × List Char :=
    match r1 with
    | '.' :: r2 => (['.'], r2)
    | _ => ([], r1)
  let d2 := dotPart.2.takeWhile Char.isDigit
  let r3 := dotPart.2.dropWhile Char.isDigit
  let P := d1 ++ dotPart.1 ++ d2
  let S := r3.takeWhile isPySpace
  let R := r3.dropWhile isPySpace
  if R ≠ [] ∧ R.all speciesClass then some (P, R)
  else if R = [] ∧ S = [] ∧ d2 ≠ [] then some (P.dropLast, [P.getLastD ' '])
  else if R = [] ∧ S = [] ∧ dotPart.1 = [] ∧ d1 ≠ [] then
    some (d1.dropLast, [d1.getLastD ' '])
  else none

def natOfDigits (l : List Char) : Nat :=
  l.foldl (fun n c => n * 10 + (c.toNat - 48)) 0

/-- Python `float()` on a coefficient matched by `\d*\.?\d*` (nonempty):
fails exactly on the bare `"."`. -/
def parseFloat (l : List Char) : Option Frac :=
  let d1 := l.takeWhile Char.isDigit
  match l.dropWhile Char.isDigit with
  | [] => some (Frac.ofInt (natOfDigits d1))
  | '.' :: r2 =>
      if d1 = [] ∧ r2 = [] then none
      else some (Frac.dec (natOfDigits (d1 ++ r2)) r2.length)
  | _ => none

inductive ParseErr where
  | noArrow
  | oneSigned
  | badFloat
deriving DecidableEq, Repr

/-- One additive term's `(species, ν)` contribution (used to state the
sign property); a term whose coefficient text fails `float()` has no
defined contribution. -/
def termContrib (t : List Char) : Option (String × Frac) :=
  let tt := stripChars t
  if tt = [] then none
  else
    match matchTerm tt with
    | some (c, sp) =>
        if c = [] then some (String.mk sp, Frac.ofInt 1)
        else (parseFloat c).map (fun nu => (String.mk sp, nu))
    | none => some (String.mk tt, Frac.ofInt 1)

/-- Whether some term of the side has the fatal bare-`"."` coefficient. -/
def termBad (t : List Char) : Bool :=
  match matchTerm (stripChars t) with
  | some (c, _) => c ≠ [] && (parseFloat c).isNone
  | none => false

def sideHasBad (side : List Char) : Bool := (splitPlus side).any termBad

/-- One iteration of `parse_side`'s accumulation loop: add `sign*nu` for
the term's species into the running dictionary. -/
def sideStep (sign : Frac) (acc : List (String × Frac)) (t : List Char) :
    Except ParseErr (List (String × Frac)) := do
  let tt := stripChars t
  if tt = [] then pure acc
  else
    let (coefStr, sp) :=
      match matchTerm tt with
      | some (c, s) => (c, s)
      | none => (([] : List Char), tt)
    let nu ← if coefStr = [] then pure (Frac.ofInt 1)
      else
        match parseFloat coefStr with
        | some v => pure v
        | none => throw ParseErr.badFloat
    pure (dset acc (String.mk sp)
      ((dGetD acc (String.mk sp) (Frac.ofInt 0)).add (sign.mul nu)))

/-- `parse_side(side, sign)`: accumulate `species[sp] = species.get(sp, 0.0)
+ sign*nu` over the terms. -/
def parse_side (side : List Char) (sign : Frac) :
    Except ParseErr (List (String × Frac)) :=
  (splitPlus side).foldlM (sideStep sign) []

/-- `st[k] = st.get(k, 0) + v` over the entries of `e`. -/
def addInto (d e : List (String × Frac)) : List (String × Frac) :=
  e.foldl (fun acc kv =>
    dset acc kv.1 ((dGetD acc kv.1 (Frac.ofInt 0)).add kv.2)) d

/-- `all(v >= 0 ...) or all(v <= 0 ...)`: the degenerate one-signed test. -/
def oneSignedMap (st : List (String × Frac)) : Bool :=
  st.all (fun kv => (Frac.ofInt 0).ble kv.2) ||
    st.all (fun kv => kv.2.ble (Frac.ofInt 0))

/-- `gui._parse_reaction`: species → signed coefficient (reactants
negative, products positive). -/
def parse_reaction (s : String) : Except ParseErr (List (String × Frac)) := do
  let e := arrowExpand s.data
  if !hasArrowSub e then throw ParseErr.noArrow
  else
    let lr := splitArrow e
    let dl ← parse_side (stripChars lr.1) (Frac.ofInt (-1))
    let dr ← parse_side (stripChars lr.2) (Frac.ofInt 1)
    let st := addInto (addInto [] dl) dr
    if oneSignedMap st then throw ParseErr.oneSigned
    else pure st

/-- Sum of the ν-contributions of species `sp` among the side's terms. -/
def sideSum (side : List Char) (sp : String) : Frac :=
  (((splitPlus side).filterMap termContrib).filter (fun kv => kv.1 = sp)).foldl
    (fun acc kv => acc.add kv.2) (Frac.ofInt 0)

/-!
### Species tokenizer and dissociation rules (`gui.py` net-ionic tool)

`_tokenize` is the stack-based formula reader; `_read_charge` implements
the leftmost search of `(?:\^?\s*([+-]?\d+)?\s*([+-]))\s*$` (including its
quirk that `int` is applied to the signed number group);
`_strip_phase_and_ws` removes every parenthesised run of 1–3 letters.
-/

inductive TokErr where
  | badChar
  | unmatched
deriving DecidableEq, Repr

/-- One step of `_tokenize`'s character loop over the explicit dict stack
(head of the list is the top of the stack).  (Python's `IndexError` on a
push with an empty stack and the final unmatched-parentheses `ValueError`
are both modelled by `.unmatched`.)  Structural recursion on a fuel that
counts loop iterations; every iteration consumes at least one character,
so the fuel `length + 1` passed by `tokenize` is never exhausted. -/
def tokLoop : Nat → List Char → List (List (String × Int)) →
    Except TokErr (List (String × Int))
  | 0, _, _ => .error .unmatched
  | _ + 1, [], stack =>
      match stack with
      | [d] => .ok d
      | _ => .error .unmatched
  | fuel + 1, '(' :: t, stack => tokLoop fuel t ([] :: stack)
  | fuel + 1, ')' :: t, stack =>
      let ds := t.takeWhile Char.isDigit
      let rest := t.dropWhile Char.isDigit
      let mult : Int := if ds = [] then 1 else (natOfDigits ds : Int)
      match stack with
      | grp :: outer :: more =>
          tokLoop fuel rest
            ((grp.foldl (fun acc kv =>
              dset acc kv.1 (dGetD acc kv.1 0 + kv.2 * mult)) outer) :: more)
      | _ => .error .unmatched
  | fuel + 1, c :: t, stack =>
      if !c.isAlpha then .error .badChar
      else
        let (sym, r1) :=
          match t with
          | c2 :: t2 => if c2.isLower then ([c, c2], t2) else ([c], t)
          | [] => ([c], t)
        let ds := r1.takeWhile Char.isDigit
        let rest := r1.dropWhile Char.isDigit
        let cnt : Int := if ds = [] then 1 else (natOfDigits ds : Int)
        match stack with
        | top :: more =>
            tokLoop fuel rest ((dset top (String.mk sym)
              (dGetD top (String.mk sym) 0 + cnt)) :: more)
        | [] => .error .unmatched

/-- `gui._tokenize`. -/
def tokenize (formula : List Char) : Except TokErr (List (String × Int)) :=
  tokLoop (formula.length + 1) formula [[]]

/-- `[+-]?\d+` (at least one digit), returning the signed value `int`
would produce and the rest. -/
def parseSignedInt (l : List Char) : Option (Int × List Char) :=
  let core (sgn : Int) (r : List Char) : Option (Int × List Char) :=
    let ds := r.takeWhile Char.isDigit
    if ds = [] then none
    else some (sgn * (natOfDigits ds : Int), r.dropWhile Char.isDigit)
  match l with
  | '+' :: r => core 1 r
  | '-' :: r => core (-1) r
  | _ => core 1 l

/-- Attempt the charge pattern at one start position (to the end of the
string): optional `^`, spaces, optional signed number, spaces, a
mandatory sign, trailing spaces.  Returns the charge. -/
def matchChargeAt (l : List Char) : Option Int :=
  let l1 := match l with
    | '^' :: r => r
    | _ => l
  let l2 := l1.dropWhile isPySpace
  let finishAt (mag : Int) (r : List Char) : Option Int :=
    match r.dropWhile isPySpace with
    | '+' :: r3 => if (r3.dropWhile isPySpace) = [] then some mag else none
    | '-' :: r3 => if (r3.dropWhile isPySpace) = [] then some (-mag) else none
    | _ => none
  match parseSignedInt l2 with
  | some (v, r) =>
      match finishAt v r with
      | some chg => some chg
      | none => finishAt 1 l2
  | none => finishAt 1 l2

/-- The leftmost-match loop of `re.search`: `acc` holds the (reversed)
characters before the current start position; `none` when no position
matches. -/
def readChargeAux (acc : List Char) : List Char → Option (List Char × Int)
  | [] => none
  | c :: t =>
      match matchChargeAt (c :: t) with
      | some chg => some (stripChars acc.reverse, chg)
      | none => readChargeAux (c :: acc) t

/-- `gui._read_charge`: split a trailing charge such as `^2+`, `2-`, `+`
off the label (a matched charge of zero still strips its suffix); no
match leaves the string unchanged with charge 0. -/
def read_charge (s : List Char) : List Char × Int :=
  match readChargeAux [] s with
  | some r => r
  | none => (s, 0)

/-- `re.sub(r"\([a-z]{1,3}\)\s*", "", s, flags=re.I)`: remove every
parenthesised run of one to three letters together with following
whitespace. -/
def isCloseParen : List Char → Bool
  | ')' :: _ => true
  | _ => false

/-- Fuel-structural worker (each step consumes at least one character). -/
def stripPhaseSubF : Nat → List Char → List Char
  | 0, l => l
  | _ + 1, [] => []
  | fuel + 1, '(' :: t =>
      if 1 ≤ (t.takeWhile Char.isAlpha).length ∧
          (t.takeWhile Char.isAlpha).length ≤ 3 ∧
          isCloseParen (t.drop (t.takeWhile Char.isAlpha).length) = true then
        stripPhaseSubF fuel
          ((t.drop ((t.takeWhile Char.isAlpha).length + 1)).dropWhile isPySpace)
      else '(' :: stripPhaseSubF fuel t
  | fuel + 1, c :: t => c :: stripPhaseSubF fuel t

def stripPhaseSub (l : List Char) : List Char :=
  stripPhaseSubF (l.length + 1) l

/-- `gui._strip_phase_and_ws`. -/
def strip_phase_and_ws (s : List Char) : List Char :=
  ((stripPhaseSub (stripChars s)).filter (fun c => c ≠ '·' ∧ c ≠ ' '))

/-- The phase regex `\((s|l|g|aq)\)\s*$` (case-insensitive): returns the
text before the match and the lowercased phase. -/
def phaseSplit (s : List Char) : Option (List Char × String) :=
  let core := (s.reverse.dropWhile isPySpace).reverse
  let low := core.map pyLowerChar
  if begWith low.reverse (")qa(".data) then
    some (core.take (core.length - 4), "aq")
  else if begWith low.reverse (")s(".data) then
    some (core.take (core.length - 3), "s")
  else if begWith low.reverse (")l(".data) then
    some (core.take (core.length - 3), "l")
  else if begWith low.reverse (")g(".data) then
    some (core.take (core.length - 3), "g")
  else none

structure SpecTok where
  coeff : Int
  core : String
  phase : Option String
  charge : Int
  atoms : List (String × Int)
deriving DecidableEq, Repr

/-- `gui.parse_species_token`. -/
def parse_species_token (tok : List Char) : Except TokErr SpecTok := do
  let s0 := stripChars tok
  let d := s0.takeWhile Char.isDigit
  let (coeff, s1) :=
    if d = [] then ((1 : Int), s0)
    else ((natOfDigits d : Int),
      stripChars ((s0.dropWhile Char.isDigit).dropWhile isPySpace))
  let (phase, s2) :=
    match phaseSplit s1 with
    | some (before, p) => (some p, stripChars before)
    | none => (none, s1)
  let (core, charge) := read_charge s2
  let atoms ← tokenize (strip_phase_and_ws core)
  pure ⟨coeff, String.mk core, phase, charge, atoms⟩

def POLY : List (String × Int) := [
  ("NO3", -1), ("NO2", -1), ("ClO4", -1), ("ClO3", -1), ("ClO", -1),
  ("CN", -1), ("OH", -1), ("SCN", -1), ("C2H3O2", -1), ("CH3COO", -1),
  ("SO4", -2), ("SO3", -2), ("CO3", -2), ("S", -2), ("Cr2O7", -2),
  ("HCO3", -1), ("HSO4", -1), ("PO4", -3), ("HPO4", -2), ("H2PO4", -1),
  ("MnO4", -1)]

def STRONG_ACIDS : List (String × List String) := [
  ("HCl", ["H^+", "Cl^-"]),
  ("HBr", ["H^+", "Br^-"]),
  ("HI", ["H^+", "I^-"]),
  ("HNO3", ["H^+", "NO3^-"]),
  ("HClO3", ["H^+", "ClO3^-"]),
  ("HClO4", ["H^+", "ClO4^-"]),
  ("H2SO4", ["H^+", "H^+", "SO4^2-"])]

def STRONG_BASES : List (String × List String) := [
  ("NaOH", ["Na^+", "OH^-"]), ("KOH", ["K^+", "OH^-"]),
  ("LiOH", ["Li^+", "OH^-"]), ("RbOH", ["Rb^+", "OH^-"]),
  ("CsOH", ["Cs^+", "OH^-"]),
  ("Ba(OH)2", ["Ba^2+", "OH^-", "OH^-"]),
  ("Sr(OH)2", ["Sr^2+", "OH^-", "OH^-"]),
  ("Ca(OH)2", ["Ca^2+", "OH^-", "OH^-"])]

def GROUP1 : List String := ["Li", "Na", "K", "Rb", "Cs", "Fr"]

def GROUP2 : List String := ["Be", "Mg", "Ca", "Sr", "Ba", "Ra"]

def natDigitsAux : Nat → Nat → List Char
  | 0, _ => []
  | fuel + 1, n =>
      if n = 0 then []
      else natDigitsAux fuel (n / 10) ++ [Char.ofNat (48 + n % 10)]

/-- Decimal rendering of a natural number (Python `str`). -/
def natStr (n : Nat) : String :=
  if n = 0 then "0" else String.mk (natDigitsAux 30 n)

/-- `gui.as_ion_str`: the caret and magnitude only appear for `|z| > 1`. -/
def as_ion_str (elem : String) (z : Int) : String :=
  let sign := if 0 < z then "+" else "-"
  let mag := z.natAbs
  elem ++ (if 1 < mag then "^" ++ natStr mag else "") ++ sign

/-- `[(i, ions.count(i)) for i in sorted(set(ions), key=ions.index)]`. -/
def ionMultiset (ions : List String) : List (String × Int) :=
  ions.eraseDups.map (fun i => (i, ((ions.filter (· = i)).length : Int)))

/-- `int(m.group(1) or "1")` on the trailing digit group. -/
def polyCount (ds : List Char) : Nat := if ds = [] then 1 else natOfDigits ds

/-- One start position of the anion-suffix regex `(?:\(an\)|an)(\d*)$`:
the alternation tries the parenthesised form first, then the bare one;
`\d*$` forces everything after the anion to be digits.  Returns the
anion count when the position matches. -/
def polyHere (an l : List Char) : Option Nat :=
  if begWith l ('(' :: an ++ [')']) && (l.drop (an.length + 2)).all Char.isDigit then
    some (polyCount (l.drop (an.length + 2)))
  else if begWith l an && (l.drop an.length).all Char.isDigit then
    some (polyCount (l.drop an.length))
  else none

/-- The leftmost-match loop of `re.search` for the anion suffix; `acc`
holds the (reversed) characters before the current start position. -/
def polyMatchAux (an acc : List Char) : List Char → Option (Nat × List Char)
  | [] => none
  | c :: t =>
      match polyHere an (c :: t) with
      | some cnt => some (cnt, acc.reverse)
      | none => polyMatchAux an (c :: acc) t

/-- The anion-suffix regex `(?:\(an\)|an)(\d*)$`: returns the anion count
and the text before the (unique, end-anchored) match — which is also what
`re.sub` of the same pattern leaves behind. -/
def polyMatch (an : List Char) (bare : List Char) : Option (Nat × List Char) :=
  polyMatchAux an [] bare

/-- `re.sub(r"[()]+$", "", s)`. -/
def stripTrailParens (l : List Char) : List Char :=
  (l.reverse.dropWhile (fun c => c = '(' || c = ')')).reverse

/-- The polyatomic-anion loop body of `try_dissociate`; walks `POLY` in
table order, `continue`-ing exactly where the source does. -/
def polyLoop (bare : List Char) : List (String × Int) →
    Except TokErr (Option (List (String × Int)))
  | [] => .ok none
  | (an, zAn) :: rest =>
      match polyMatch an.data bare with
      | none => polyLoop bare rest
      | some (countAn, catRaw) =>
          let catBlock := stripTrailParens catRaw
          if catBlock = [] then polyLoop bare rest
          else if catBlock = "NH4".data then
            let totalAn : Int := (countAn : Int) * zAn
            let nC : Nat := totalAn.natAbs / 1
            let nC := if nC = 0 then 1 else nC
            .ok (some [(as_ion_str "NH4" 1, (nC : Int)),
              (as_ion_str (String.mk an.data) zAn, (countAn : Int))])
          else do
            let toks ← tokenize catBlock
            match dKeys toks with
            | [catUnit] =>
                let zCat? : Option Int :=
                  if GROUP1.contains catUnit then some 1
                  else if GROUP2.contains catUnit then some 2
                  else none
                let totalAn : Int := (countAn : Int) * zAn
                match zCat? with
                | some zCat =>
                    let nC : Nat := totalAn.natAbs / zCat.natAbs
                    let nC := if nC = 0 then 1 else nC
                    .ok (some [(as_ion_str catUnit zCat, (nC : Int)),
                      (as_ion_str (String.mk an.data) zAn, (countAn : Int))])
                | none =>
                    let zCat := -totalAn
                    if zCat = 0 then polyLoop bare rest
                    else
                      let nC : Nat := totalAn.natAbs / zCat.natAbs
                      let nC := if nC = 0 then 1 else nC
                      .ok (some [(as_ion_str catUnit zCat, (nC : Int)),
                        (as_ion_str (String.mk an.data) zAn, (countAn : Int))])
            | _ => polyLoop bare rest

/-- The binary-chloride regex `^([A-Z][a-z]?)(\d*)Cl(\d*)$` (with the
backtracking on the optional lowercase letter). -/
def clMatch (l : List Char) : Option (String × Nat × Nat) :=
  let attempt (el : List Char) (r : List Char) : Option (String × Nat × Nat) :=
    let d1 := r.takeWhile Char.isDigit
    match r.dropWhile Char.isDigit with
    | 'C' :: 'l' :: r3 =>
        let d2 := r3.takeWhile Char.isDigit
        if r3.dropWhile Char.isDigit = [] then
          some (String.mk el, (if d1 = [] then 1 else natOfDigits d1),
            (if d2 = [] then 1 else natOfDigits d2))
        else none
    | _ => none
  match l with
  | [] => none
  | c :: rest =>
      if !c.isUpper then none
      else
        match rest with
        | c2 :: rest2 =>
            if c2.isLower then
              match attempt [c, c2] rest2 with
              | some r => some r
              | none => attempt [c] rest
            else attempt [c] rest
        | [] => attempt [c] rest

/-- `gui.try_dissociate`: `some ions` when the aqueous species fully
dissociates, `none` when it is kept as an intact molecule.  The embedded
`_tokenize` call on the cation block can raise, hence the `Except`. -/
def try_dissociate (spec : SpecTok) : Except TokErr (Option (List (String × Int))) :=
  if spec.phase ≠ some "aq" then .ok none
  else
    let bare := strip_phase_and_ws spec.core.data
    if spec.charge ≠ 0 then
      .ok (some [(as_ion_str (String.mk bare) spec.charge, 1)])
    else
      match dget STRONG_ACIDS (String.mk bare) with
      | some ions => .ok (some (ionMultiset ions))
      | none =>
          match dget STRONG_BASES (String.mk bare) with
          | some ions => .ok (some (ionMultiset ions))
          | none => do
              match ← polyLoop bare POLY with
              | some r => pure (some r)
              | none =>
                  match clMatch bare with
                  | some (el, n1, n2) =>
                      let zCat : Int :=
                        if GROUP1.contains el then 1
                        else if GROUP2.contains el then 2
                        else
                          let q : Int := (n2 : Int) / (max (n1 : Int) 1)
                          if q = 0 then 1 else q
                      pure (some [(as_ion_str el zCat, (n1 : Int)),
                        ("Cl^-", (n2 : Int))])
                  | none => pure none

/-!
### The ICE extent solver (`gui.py`, `_solve_extent_for_K`)

Stoichiometric coefficients are embedded as integers (the only regime in
which the float power `c**nu` is rational); on integers the source's
threshold `abs(nu) < 1e-16` is exactly `nu = 0`.  The initial
concentrations are a total map (the source indexes `C0[sp]`).  The unused
`is_pressure` flag is omitted.  The grid/`vals` lists are represented by
the index functions `gridPoint`/`gridVal`; the bracket scan, bisection and
fallback loops mirror the source's control flow, including the
unreachable `fa * fm` type error when `f(a)` is undefined.
-/

/-- Python `max` on two floats. -/
def fmax (a b : Frac) : Frac := if a.blt b then b else a

/-- Python `min` on two floats. -/
def fmin (a b : Frac) : Frac := if b.blt a then b else a

def bigB : Frac := Frac.dec 1000000000000000000000000000000 0

/-- The feasible-interval fold: `lo = max(lo, -C0/nu)` over `nu > 0`,
`hi = min(hi, -C0/nu)` over `nu < 0`, starting from `(-1e30, 1e30)`. -/
def extentBounds (stoich : List (String × Int)) (C0 : String → Frac) :
    Frac × Frac :=
  stoich.foldl (fun lh kv =>
    if kv.2 = 0 then lh
    else if 0 < kv.2 then
      (fmax lh.1 ((C0 kv.1).neg.div (Frac.ofInt kv.2)), lh.2)
    else
      (lh.1, fmin lh.2 ((C0 kv.1).neg.div (Frac.ofInt kv.2))))
    (bigB.neg, bigB)

/-- One species step of `Q_of`'s accumulation: `None` as soon as the
concentration `C0_i + ν_i·x ≤ 0`, else multiply the positive or negative
power into the running numerator/denominator pair. -/
def qStep (C0 : String → Frac) (x : Frac) (nd : Frac × Frac)
    (kv : String × Int) : Option (Frac × Frac) :=
  let c := (C0 kv.1).add ((Frac.ofInt kv.2).mul x)
  if c.ble (Frac.ofInt 0) then none
  else if 0 < kv.2 then some (nd.1.mul (c.pow kv.2.natAbs), nd.2)
  else if kv.2 < 0 then some (nd.1, nd.2.mul (c.pow kv.2.natAbs))
  else some nd

/-- `Q_of(x)`: `None` as soon as any concentration `C0_i + ν_i·x ≤ 0`,
otherwise the quotient `num/den` of the positive and negative powers. -/
def Q_of (stoich : List (String × Int)) (C0 : String → Frac) (x : Frac) :
    Option Frac :=
  (stoich.foldlM (qStep C0 x)
    (Frac.ofInt 1, Frac.ofInt 1)).map (fun nd => nd.1.div nd.2)

/-- `f(x) = Q(x) - K`. -/
def fObj (stoich : List (String × Int)) (C0 : String → Frac) (K : Frac)
    (x : Frac) : Option Frac :=
  (Q_of stoich C0 x).map (fun q => q.sub K)

/-- `xs[i] = lo + (hi-lo)*i/N` with `N = 200`. -/
def gridPoint (lo hi : Frac) (i : Nat) : Frac :=
  lo.add (((hi.sub lo).mul (Frac.ofInt i)).div (Frac.ofInt 200))

inductive ScanRes where
  | found (x : Frac)
  | bracket (a b : Frac)
  | nothing
deriving DecidableEq, Repr

/-- The coarse bracket scan over consecutive grid points `i, i+1`,
including the `fa == 0` / `fb == 0` early returns. -/
def scanBracket (xs : Nat → Frac) (vals : Nat → Option Frac) :
    Nat → Nat → ScanRes
  | 0, _ => .nothing
  | fuel + 1, i =>
      match vals i, vals (i + 1) with
      | some fa, some fb =>
          if fa.beq (Frac.ofInt 0) then .found (xs i)
          else if fb.beq (Frac.ofInt 0) then .found (xs (i + 1))
          else if (fa.mul fb).blt (Frac.ofInt 0) then .bracket (xs i) (xs (i + 1))
          else scanBracket xs vals fuel (i + 1)
      | _, _ => scanBracket xs vals fuel (i + 1)

inductive ExtErr where
  | infeasible
  | evalFailed
  | typeErr
deriving DecidableEq, Repr

def half : Frac := Frac.normMk 1 2

def tol12 : Frac := Frac.dec 1 12

/-- The bisection loop (100 iterations): `break` on an undefined midpoint
returns `0.5*(a+b)`; `fa * fm` with an undefined `f(a)` would raise a
`TypeError` (unreachable, since `a` always carries a defined value). -/
def bisect (f : Frac → Option Frac) : Nat → Frac → Frac → Except ExtErr Frac
  | 0, a, b => .ok ((a.add b).mul half)
  | fuel + 1, a, b =>
      let m := ((a.add b).mul half)
      match f m with
      | none => .ok ((a.add b).mul half)
      | some fm =>
          if fm.fabs.blt tol12 then .ok m
          else
            match f a with
            | none => .error .typeErr
            | some fa =>
                if (fa.mul fm).ble (Frac.ofInt 0) then bisect f fuel a m
                else bisect f fuel m b

/-- The fallback minimum-`|f|` scan over all grid values (strict
improvement, first minimum kept). -/
def fallbackScan (xs : Nat → Frac) (vals : Nat → Option Frac) :
    Nat → Nat → Option (Frac × Frac) → Option Frac
  | 0, _, best => best.map (·.2)
  | fuel + 1, i, best =>
      let best' :=
        match vals i with
        | none => best
        | some v =>
            match best with
            | none => some (v.fabs, xs i)
            | some pr => if v.fabs.blt pr.1 then some (v.fabs, xs i) else pr
      fallbackScan xs vals fuel (i + 1) best'

/-- `gui._solve_extent_for_K`. -/
def solve_extent_for_K (stoich : List (String × Int)) (C0 : String → Frac)
    (K : Frac) : Except ExtErr Frac :=
  let lh := extentBounds stoich C0
  if !(lh.1.blt lh.2) then .error .infeasible
  else
    let xs : Nat → Frac := gridPoint lh.1 lh.2
    let f : Frac → Option Frac := fObj stoich C0 K
    let vals : Nat → Option Frac := fun i => f (xs i)
    match scanBracket xs vals 200 0 with
    | .found x => .ok x
    | .bracket a b => bisect f 100 a b
    | .nothing =>
        match fallbackScan xs vals 201 0 none with
        | some x => .ok x
        | none => .error .evalFailed

/-!
### The net-ionic balancer (`gui.py`, `_balance_net_ionic` and `go`)

Exact rational Gauss-Jordan elimination on the element/charge
conservation matrix, scaled to integers by the lcm of the denominators,
then element-wise sign normalisation, written back over the keys of the
two input maps.  The caller `go` wraps the call in `try/except` and keeps
the unscaled counts on failure (`net_ionic_step`).
-/

/-- `gui._atoms_and_charge`. -/
def atoms_and_charge (label : String) :
    Except TokErr (List (String × Int) × Int) := do
  let s := stripChars label.data
  let (core, z) := read_charge s
  let atoms ← tokenize (strip_phase_and_ws core)
  pure (atoms, z)

structure BalSpec where
  side : Bool
  label : String
  atoms : List (String × Int)
  z : Int
deriving DecidableEq, Repr

/-- Collect the species rows (`side` is `true` for the left side). -/
def collectSpecs (netL netR : List (String × Int)) :
    Except TokErr (List BalSpec) := do
  let ls ← netL.mapM (fun kv => do
    let az ← atoms_and_charge kv.1
    pure (⟨true, kv.1, az.1, az.2⟩ : BalSpec))
  let rs ← netR.mapM (fun kv => do
    let az ← atoms_and_charge kv.1
    pure (⟨false, kv.1, az.1, az.2⟩ : BalSpec))
  pure (ls ++ rs)

/-- `sorted(set().union(*[s["atoms"].keys() for s in specs]))`. -/
def gatherElements (specs : List BalSpec) : List String :=
  ((specs.foldl (fun acc s => acc ++ dKeys s.atoms) []).eraseDups).insertionSort
    (fun a b => pyStrLe a b = true)

/-- The element-conservation rows followed by the charge row (left side
positive, right side negated). -/
def balanceRows (specs : List BalSpec) : List (List Frac) :=
  (gatherElements specs).map (fun el =>
    specs.map (fun s =>
      let coef := dGetD s.atoms el 0
      Frac.ofInt (if s.side then coef else -coef))) ++
  [specs.map (fun s => Frac.ofInt (if s.side then s.z else -s.z))]

/-- Row `i` of the matrix (out-of-range gives `[]`, never reached). -/
def rowGet (A : List (List Frac)) (i : Nat) : List Frac := A.getD i []

def matEntry (A : List (List Frac)) (i j : Nat) : Frac :=
  (rowGet A i).getD j (Frac.ofInt 0)

/-- `next((i for i in range(r, R) if A[i][c] != 0), None)`. -/
def findPivot (A : List (List Frac)) (R r c : Nat) : Option Nat :=
  ((List.range R).drop r).find? (fun i => !(matEntry A i c).beq (Frac.ofInt 0))

/-- Swap rows `r` and `k`. -/
def swapRows (A : List (List Frac)) (r k : Nat) : List (List Frac) :=
  (A.set r (rowGet A k)).set k (rowGet A r)

/-- Normalise row `r` by its pivot value and eliminate the pivot column
from every other row. -/
def eliminateAt (A : List (List Frac)) (R r c : Nat) : List (List Frac) :=
  let pv := matEntry A r c
  let A1 := A.set r ((rowGet A r).map (fun x => x.div pv))
  (List.range R).foldl (fun B i =>
    if i = r then B
    else
      let f := matEntry B i c
      if (f.beq (Frac.ofInt 0)) then B
      else B.set i (((rowGet B i).zipWith (fun x y => x.sub (f.mul y))
        (rowGet B r)))) A1

/-- The Gauss-Jordan sweep (`while r < R and c < C`), with fuel on the
strictly increasing column index. -/
def gjSweep (R C : Nat) : Nat → Nat → Nat → List (List Frac) →
    List (Option Nat) → (List (List Frac) × List (Option Nat))
  | 0, _, _, A, piv => (A, piv)
  | fuel + 1, r, c, A, piv =>
      if r < R ∧ c < C then
        match findPivot A R r c with
        | none => gjSweep R C fuel r (c + 1) A piv
        | some k =>
            let A1 := swapRows A r k
            let A2 := eliminateAt A1 R r c
            gjSweep R C fuel (r + 1) (c + 1) A2 (piv.set r (some c))
      else (A, piv)

/-- Free columns: `[j for j in range(C) if j not in piv] or [C-1]`. -/
def freeCols (C : Nat) (piv : List (Option Nat)) : List Nat :=
  let fs := (List.range C).filter (fun j => !(piv.contains (some j)))
  if fs = [] then [C - 1] else fs

/-- Back substitution `sol[pc] = -sum(A[i][j]*sol[j] for j in pc+1..C)`,
over rows in reverse order. -/
def backSub (A : List (List Frac)) (C : Nat) (piv : List (Option Nat)) :
    Nat → List Frac → List Frac
  | 0, sol => sol
  | i + 1, sol =>
      let sol' :=
        match piv.getD i none with
        | none => sol
        | some pc =>
            let s := (((List.range C).drop (pc + 1)).foldl
              (fun acc j => acc.add ((matEntry A i j).mul
                (sol.getD j (Frac.ofInt 0)))) (Frac.ofInt 0)).neg
            sol.set pc s
      backSub A C piv i sol'

/-- `den = lcm of denominators; ints = [int(v*den)]`. -/
def solToInts (sol : List Frac) : List Int :=
  let den : Nat := sol.foldl (fun d v => Nat.lcm d v.den.natAbs) 1
  sol.map (fun v => (v.mul (Frac.ofInt den)).num)

/-- Element-wise sign normalisation: if any entry is negative, take
absolute values. -/
def signNormalize (ints : List Int) : List Int :=
  if ints.any (fun x => x < 0) then ints.map (fun x => |x|) else ints

/-- `gui._balance_net_ionic`. -/
def balance_net_ionic (netL netR : List (String × Int)) :
    Except TokErr (List (String × Int) × List (String × Int)) := do
  let specs ← collectSpecs netL netR
  if specs = [] then pure (netL, netR)
  else
    let rows := balanceRows specs
    let R := rows.length
    let C := (rows.getD 0 []).length
    let piv0 : List (Option Nat) := List.replicate R none
    let (A, piv) := gjSweep R C (C + 1) 0 0 rows piv0
    let free := freeCols C piv
    let sol0 : List Frac := (List.replicate C (Frac.ofInt 0))
    let sol1 := free.foldl (fun s j => s.set j (Frac.ofInt 1)) sol0
    let sol := backSub A C piv R sol1
    let ints := signNormalize (solToInts sol)
    let outL := (dKeys netL).zip (ints.take netL.length)
    let outR := (dKeys netR).zip (ints.drop netL.length)
    pure (outL, outR)

/-- The caller's `try: netL, netR = _balance_net_ionic(...) except: pass`
step in `go`: on any failure the unscaled counts are kept. -/
def net_ionic_step (netL netR : List (String × Int)) :
    List (String × Int) × List (String × Int) :=
  match balance_net_ionic netL netR with
  | .ok out => out
  | .error _ => (netL, netR)

/-- Total charge of one output side, weighting each species' charge (as
re-read by `_atoms_and_charge`) by its coefficient. -/
def chargeOf (label : String) : Int :=
  match atoms_and_charge label with
  | .ok az => az.2
  | .error _ => 0

def sideCharge (side : List (String × Int)) : Int :=
  side.foldl (fun acc kv => acc + kv.2 * chargeOf kv.1) 0

/-- Count of one element on one output side, weighted by coefficients. -/
def elemCount (side : List (String × Int)) (el : String) : Int :=
  side.foldl (fun acc kv =>
    acc + kv.2 * (match atoms_and_charge kv.1 with
      | .ok az => dGetD az.1 el 0
      | .error _ => 0)) 0

/-!
### Statement-support definitions and decidability
-/

/-- Decidable equality for `Except` results (needed so that concrete runs
of the embedded functions can be checked by `decide`). -/
instance {ε α : Type} [DecidableEq ε] [DecidableEq α] : DecidableEq (Except ε α) :=
  fun a b =>
    match a, b with
    | .ok x, .ok y =>
        match decEq x y with
        | isTrue h => isTrue (by rw [h])
        | isFalse h => isFalse (fun hh => h (by cases hh; rfl))
    | .error x, .error y =>
        match decEq x y with
        | isTrue h => isTrue (by rw [h])
        | isFalse h => isFalse (fun hh => h (by cases hh; rfl))
    | .ok _, .error _ => isFalse (fun hh => Except.noConfusion hh)
    | .error _, .ok _ => isFalse (fun hh => Except.noConfusion hh)

/-- The rational ν-sum contributed to species `sp` by a list of additive
terms (specification-side view of `parse_side`'s accumulation). -/
def contribSum (sp : String) : List (List Char) → ℚ
  | [] => 0
  | t :: ts =>
      (match termContrib t with
       | some pr => if pr.1 = sp then pr.2.val else 0
       | none => 0) + contribSum sp ts

/-- The left and right raw sides of the reaction text (after arrow
normalisation, split at the first arrow, stripped). -/
def reactionSides (s : String) : List Char × List Char :=
  let lr := splitArrow (arrowExpand s.data)
  (stripChars lr.1, stripChars lr.2)

/-- The registry entry that `_ALIAS_TO_CANON` should map a lowercased
alias to, per last-wins overwriting: the last entry declaring it. -/
def lastDeclCanon (a : String) : Option String :=
  ((VARIABLES.reverse).find? (fun e => (aliasEntryKeys e).contains a)).map (·.1)

/-!
### Proof section: all theorems
-/

theorem Frac.exact_div_pos {d g : Int} (hg : g ≠ 0) (hdvd : g ∣ d)
    (hsign : 0 < d * g) : 0 < d / g := by
  obtain ⟨k, hk⟩ := hdvd
  subst hk
  rw [Int.mul_ediv_cancel_left k hg]
  nlinarith [sq_nonneg g]

theorem Frac.exact_div_cast_frac {n d g : Int} (hg : g ≠ 0) (hn : g ∣ n)
    (hd : g ∣ d) (hdz : d ≠ 0) :
    ((n / g : Int) : ℚ) / ((d / g : Int) : ℚ) = (n : ℚ) / (d : ℚ) := by
  rw [Int.cast_div_charZero hn, Int.cast_div_charZero hd]
  have hgq : (g : ℚ) ≠ 0 := by exact_mod_cast hg
  have hdq : (d : ℚ) ≠ 0 := by exact_mod_cast hdz
  field_simp

theorem Frac.normMk_den_pos {n d : Int} (hd : d ≠ 0) :
    0 < (Frac.normMk n d).den := by
  have hg0 : 0 < (Int.gcd n d : Int) := by
    have := Int.gcd_pos_of_ne_zero_right n hd
    exact_mod_cast this
  unfold Frac.normMk
  rw [if_neg hd]
  simp only []
  split_ifs with hneg
  · exact Frac.exact_div_pos (by omega) ((Int.gcd_dvd_right).neg_left)
      (by nlinarith)
  · have hdp : 0 < d := lt_of_le_of_ne (not_lt.mp hneg) (Ne.symm hd)
    exact Frac.exact_div_pos (by omega) Int.gcd_dvd_right (by nlinarith)

theorem Frac.normMk_val {n d : Int} (hd : d ≠ 0) :
    (Frac.normMk n d).val = (n : ℚ) / (d : ℚ) := by
  have hg0 : 0 < (Int.gcd n d : Int) := by
    have := Int.gcd_pos_of_ne_zero_right n hd
    exact_mod_cast this
  unfold Frac.normMk Frac.val
  rw [if_neg hd]
  simp only []
  split_ifs with hneg
  · exact Frac.exact_div_cast_frac (by omega) ((Int.gcd_dvd_left).neg_left)
      ((Int.gcd_dvd_right).neg_left) hd
  · exact Frac.exact_div_cast_frac (by omega) Int.gcd_dvd_left
      Int.gcd_dvd_right hd

theorem Frac.val_ofInt (n : Int) : (Frac.ofInt n).val = (n : ℚ) := by
  simp [Frac.ofInt, Frac.val]

theorem Frac.val_add {a b : Frac} (ha : a.den ≠ 0) (hb : b.den ≠ 0) :
    (a.add b).val = a.val + b.val := by
  unfold Frac.add
  rw [Frac.normMk_val (mul_ne_zero ha hb)]
  unfold Frac.val
  push_cast
  rw [div_add_div _ _ (by exact_mod_cast ha) (by exact_mod_cast hb)]
  ring_nf

theorem Frac.val_sub {a b : Frac} (ha : a.den ≠ 0) (hb : b.den ≠ 0) :
    (a.sub b).val = a.val - b.val := by
  unfold Frac.sub
  rw [Frac.normMk_val (mul_ne_zero ha hb)]
  unfold Frac.val
  push_cast
  rw [div_sub_div _ _ (by exact_mod_cast ha) (by exact_mod_cast hb)]
  ring_nf

theorem Frac.val_mul {a b : Frac} (ha : a.den ≠ 0) (hb : b.den ≠ 0) :
    (a.mul b).val = a.val * b.val := by
  unfold Frac.mul
  rw [Frac.normMk_val (mul_ne_zero ha hb)]
  unfold Frac.val
  push_cast
  rw [div_mul_div_comm]

theorem Frac.val_neg (a : Frac) : a.neg.val = -a.val := by
  simp [Frac.neg, Frac.val, neg_div]

theorem Frac.val_div {a b : Frac} (ha : a.den ≠ 0) (hb : b.den ≠ 0)
    (hbn : b.num ≠ 0) : (a.div b).val = a.val / b.val := by
  unfold Frac.div
  rw [Frac.normMk_val (mul_ne_zero ha hbn)]
  unfold Frac.val
  have haq : (a.den : ℚ) ≠ 0 := by exact_mod_cast ha
  have hbq : (b.den : ℚ) ≠ 0 := by exact_mod_cast hb
  have hbnq : (b.num : ℚ) ≠ 0 := by exact_mod_cast hbn
  push_cast
  field_simp

theorem Frac.val_fabs {a : Frac} (ha : 0 < a.den) : a.fabs.val = |a.val| := by
  unfold Frac.fabs Frac.val
  rw [abs_div]
  congr 1
  · push_cast
    ring
  · exact (abs_of_pos (by exact_mod_cast ha)).symm

theorem Frac.val_pow {a : Frac} (ha : a.den ≠ 0) (n : Nat) :
    (a.pow n).val = a.val ^ n := by
  induction n with
  | zero => simp [Frac.pow, Frac.val_ofInt]
  | succ k ih =>
      have hk : (a.pow k).den ≠ 0 := by
        clear ih
        induction k with
        | zero => simp [Frac.pow, Frac.ofInt]
        | succ m ihm =>
            show ((a.pow m).mul a).den ≠ 0
            exact ne_of_gt (Frac.normMk_den_pos (mul_ne_zero ihm ha))
      show ((a.pow k).mul a).val = a.val ^ (k + 1)
      rw [Frac.val_mul hk ha, ih, pow_succ]

theorem Frac.blt_iff {a b : Frac} (ha : 0 < a.den) (hb : 0 < b.den) :
    a.blt b = true ↔ a.val < b.val := by
  unfold Frac.blt Frac.val
  rw [div_lt_div_iff (by exact_mod_cast ha) (by exact_mod_cast hb)]
  rw [decide_eq_true_iff]
  exact_mod_cast Iff.rfl

theorem Frac.ble_iff {a b : Frac} (ha : 0 < a.den) (hb : 0 < b.den) :
    a.ble b = true ↔ a.val ≤ b.val := by
  unfold Frac.ble Frac.val
  rw [div_le_div_iff (by exact_mod_cast ha) (by exact_mod_cast hb)]
  rw [decide_eq_true_iff]
  exact_mod_cast Iff.rfl

theorem Frac.beq_iff {a b : Frac} (ha : a.den ≠ 0) (hb : b.den ≠ 0) :
    a.beq b = true ↔ a.val = b.val := by
  unfold Frac.beq Frac.val
  rw [div_eq_div_iff (by exact_mod_cast ha) (by exact_mod_cast hb)]
  rw [beq_iff_eq]
  exact_mod_cast Iff.rfl

theorem Frac.add_den_pos {a b : Frac} (ha : 0 < a.den) (hb : 0 < b.den) :
    0 < (a.add b).den :=
  Frac.normMk_den_pos (mul_ne_zero (ne_of_gt ha) (ne_of_gt hb))

theorem Frac.sub_den_pos {a b : Frac} (ha : 0 < a.den) (hb : 0 < b.den) :
    0 < (a.sub b).den :=
  Frac.normMk_den_pos (mul_ne_zero (ne_of_gt ha) (ne_of_gt hb))

theorem Frac.mul_den_pos {a b : Frac} (ha : 0 < a.den) (hb : 0 < b.den) :
    0 < (a.mul b).den :=
  Frac.normMk_den_pos (mul_ne_zero (ne_of_gt ha) (ne_of_gt hb))

theorem Frac.div_den_pos {a b : Frac} (ha : 0 < a.den) (hbn : b.num ≠ 0) :
    0 < (a.div b).den :=
  Frac.normMk_den_pos (mul_ne_zero (ne_of_gt ha) hbn)

theorem Frac.ofInt_den_pos (n : Int) : 0 < (Frac.ofInt n).den := by
  simp [Frac.ofInt]

theorem Frac.dec_den_pos (m : Int) (e : Nat) : 0 < (Frac.dec m e).den :=
  Frac.normMk_den_pos (by positivity)


set_option maxRecDepth 40000 in
/-- C4 counterexample: `try_dissociate` on the parsed token `NaCl(aq)`
returns the chloride label `"Cl^-"` (hard-coded with a caret), not the
claimed `"Cl-"`. -/
theorem claim_C4_counterexample :
    (parse_species_token "NaCl(aq)".data).bind try_dissociate =
      .ok (some [("Na+", 1), ("Cl^-", 1)]) ∧
    (Except.ok (some [("Na+", (1 : Int)), ("Cl^-", 1)]) :
        Except TokErr (Option (List (String × Int)))) ≠
      .ok (some [("Na+", 1), ("Cl-", 1)]) := by
  constructor
  · decide
  · decide

set_option maxRecDepth 40000 in
/-- C4 (amended): dissociating the species token `NaCl(aq)` yields exactly
the ion multiset `[("Na+",1), ("Cl^-",1)]` (the binary-chloride rule emits
the literal label `"Cl^-"`), and dissociating `CH3COOH(aq)` — a weak acid
absent from the strong-acid table — leaves the species as the intact
molecule (`none`). -/
theorem claim_C4 :
    (parse_species_token "NaCl(aq)".data).bind try_dissociate =
      .ok (some [("Na+", 1), ("Cl^-", 1)]) ∧
    (parse_species_token "CH3COOH(aq)".data).bind try_dissociate = .ok none := by
  constructor
  · decide
  · decide

theorem dget_dset {β : Type} (d : List (String × β)) (q a : String) (w : β) :
    dget (dset d q w) a = if q = a then some w else dget d a := by
  induction d with
  | nil =>
      by_cases h : q = a <;> simp [dset, dget, h]
  | cons kv t ih =>
      obtain ⟨k, v⟩ := kv
      by_cases hkq : k = q
      · subst hkq
        by_cases hka : k = a <;> simp [dset, dget, hka]
      · simp only [dset, if_neg hkq, dget]
        by_cases hka : k = a
        · have hqa : ¬ q = a := fun h => hkq (hka.trans h.symm)
          rw [if_pos hka, if_neg hqa, if_pos hka]
        · rw [if_neg hka, if_neg hka, ih]

theorem dget_foldl_dset {β : Type} (v : β) (a : String) :
    ∀ (ks : List String) (d : List (String × β)),
      dget (ks.foldl (fun acc k => dset acc k v) d) a =
        if a ∈ ks then some v else dget d a := by
  intro ks
  induction ks with
  | nil => intro d; simp
  | cons k t ih =>
      intro d
      rw [List.foldl_cons, ih]
      by_cases hat : a ∈ t
      · simp [hat]
      · rw [if_neg hat, dget_dset]
        by_cases hak : a = k
        · subst hak
          simp
        · have hka : ¬ k = a := fun h => hak h.symm
          rw [if_neg hka, if_neg (by simp [hak, hat])]

theorem dget_insertAliasEntry (d : List (String × String))
    (e : String × VarMeta) (a : String) :
    dget (insertAliasEntry d e) a =
      if (aliasEntryKeys e).contains a then some e.1 else dget d a := by
  unfold insertAliasEntry
  rw [dget_foldl_dset]
  by_cases hm : a ∈ aliasEntryKeys e
  · rw [if_pos hm, if_pos (List.elem_iff.mpr hm)]
  · rw [if_neg hm, if_neg (fun hc => hm (List.elem_iff.mp hc))]

theorem dget_foldl_insert (a : String) :
    ∀ (l : List (String × VarMeta)) (d : List (String × String)),
      dget (l.foldl insertAliasEntry d) a =
        match l.reverse.find? (fun e => (aliasEntryKeys e).contains a) with
        | some e => some e.1
        | none => dget d a := by
  intro l
  induction l with
  | nil => intro d; simp
  | cons e t ih =>
      intro d
      rw [List.foldl_cons, ih]
      rw [List.reverse_cons, List.find?_append]
      have hone : List.find? (fun e => (aliasEntryKeys e).contains a) [e] =
          if (aliasEntryKeys e).contains a then some e else none := by
        rw [List.find?_cons]
        cases hc : (aliasEntryKeys e).contains a <;> simp [hc]
      cases hf : t.reverse.find? (fun e => (aliasEntryKeys e).contains a) with
      | some e' => simp
      | none =>
          simp only [Option.none_orElse, hone]
          cases hc : (aliasEntryKeys e).contains a with
          | true =>
              simp only [dget_insertAliasEntry, hc]
              simp
          | false =>
              simp only [dget_insertAliasEntry, hc]
              simp

/-- Pointwise value of the alias table: last declaration wins.  (Avoids
evaluating the table-building fold inside the kernel.) -/
theorem dget_alias_eq_last (a : String) :
    dget ALIAS_TO_CANON a = lastDeclCanon a := by
  show dget (VARIABLES.foldl insertAliasEntry []) a = _
  rw [dget_foldl_insert]
  unfold lastDeclCanon
  cases hf : VARIABLES.reverse.find? (fun e => (aliasEntryKeys e).contains a) with
  | some e => simp
  | none => simp [dget]

set_option maxRecDepth 40000 in
/-- A nonempty stripped name found in the alias table normalises to its
table value. -/
theorem normalize_var_hit {x y : String} (hs : ¬ pyStrip x = "")
    (hy : lastDeclCanon (pyLower (pyStrip x)) = some y) :
    normalize_var x = Except.ok y := by
  simp only [normalize_var]
  rw [if_neg hs, dget_alias_eq_last, hy]

set_option maxRecDepth 40000 in
/-- C10: `normalize_var` does not fix every canonical key: the alias table
is built by last-wins overwriting over the registry, so `"m"` resolves to
`"M_molar"`, `"n"` to `"N"` and `"c"` to `"c0"`; in general every
lowercased alias string maps to the canonical key of the **last** registry
entry that declares it (`lastDeclCanon`). -/
theorem claim_C10 :
    normalize_var "m" = .ok "M_molar" ∧ normalize_var "n" = .ok "N" ∧
    normalize_var "c" = .ok "c0" ∧
    (∃ k, (dget VARIABLES k).isSome ∧ normalize_var k ≠ .ok k) ∧
    (∀ a, dget ALIAS_TO_CANON a = lastDeclCanon a) := by
  refine ⟨normalize_var_hit (y := "M_molar") (by decide) (by decide),
    normalize_var_hit (y := "N") (by decide) (by decide),
    normalize_var_hit (y := "c0") (by decide) (by decide),
    ⟨"m", by decide, ?_⟩, dget_alias_eq_last⟩
  rw [normalize_var_hit (x := "m") (y := "M_molar") (by decide) (by decide)]
  decide

theorem Frac.val_ne_zero {f : Frac} (hn : f.num ≠ 0) (hd : f.den ≠ 0) :
    f.val ≠ 0 :=
  div_ne_zero (by exact_mod_cast hn) (by exact_mod_cast hd)

/-- C7: for every variable `c` in the registry, every declared unit `u`
(with the `value·factor + offset` data looked up by the converters) whose
factor is nonzero, and every value `v`, converting to base units and back
is the identity, exactly, over the rationals. -/
theorem claim_C7 (c u : String) (f off v : Frac)
    (hlook : dget (unitChoices c) u = some (f, off)) (hu : u ≠ "")
    (hfn : f.num ≠ 0) (hfd : 0 < f.den) (hod : 0 < off.den)
    (hvd : 0 < v.den) :
    (convert_from_base c (convert_to_base c v (some u)) (some u)).val = v.val := by
  have e1 : convert_to_base c v (some u) = (v.mul f).add off := by
    simp only [convert_to_base]
    rw [if_neg hu, hlook]
  have e2 : convert_from_base c ((v.mul f).add off) (some u) =
      (((v.mul f).add off).sub off).div f := by
    simp only [convert_from_base]
    rw [if_neg hu, hlook]
  rw [e1, e2]
  have d1 : 0 < (v.mul f).den := Frac.mul_den_pos hvd hfd
  have d2 : 0 < ((v.mul f).add off).den := Frac.add_den_pos d1 hod
  have d3 : 0 < (((v.mul f).add off).sub off).den := Frac.sub_den_pos d2 hod
  rw [Frac.val_div (ne_of_gt d3) (ne_of_gt hfd) hfn,
    Frac.val_sub (ne_of_gt d2) (ne_of_gt hod),
    Frac.val_add (ne_of_gt d1) (ne_of_gt hod),
    Frac.val_mul (ne_of_gt hvd) (ne_of_gt hfd)]
  have hfv : f.val ≠ 0 := Frac.val_ne_zero hfn (ne_of_gt hfd)
  field_simp

/-- Witness for C7 at the registry entry `Q`, unit `kJ`, value 3. -/
theorem claim_C7_witness :
    (convert_from_base "Q" (convert_to_base "Q" ⟨3, 1⟩ (some "kJ"))
      (some "kJ")).val = (⟨3, 1⟩ : Frac).val :=
  claim_C7 "Q" "kJ" e3 q0 ⟨3, 1⟩ (by decide) (by decide) (by decide)
    (by decide) (by decide) (by decide)

theorem dget_none_of_not_mem {β : Type} (k : String) :
    ∀ (d : List (String × β)), k ∉ dKeys d → dget d k = none := by
  intro d
  induction d with
  | nil => intro _; rfl
  | cons kv t ih =>
      intro h
      obtain ⟨k1, v1⟩ := kv
      simp only [dKeys, List.map_cons, List.mem_cons] at h
      push_neg at h
      simp only [dget, if_neg (fun hh : k1 = k => h.1 hh.symm)]
      exact ih (by simpa [dKeys] using h.2)

theorem dget_dUpdate {β : Type} (k : String) :
    ∀ (e d : List (String × β)), (dKeys e).Nodup →
      dget (dUpdate d e) k = (dget e k).or (dget d k) := by
  intro e
  induction e with
  | nil => intro d _; rfl
  | cons kv e' ih =>
      intro d hnod
      obtain ⟨k1, v1⟩ := kv
      simp only [dKeys, List.map_cons, List.nodup_cons] at hnod
      have step : dUpdate d ((k1, v1) :: e') = dUpdate (dset d k1 v1) e' := rfl
      rw [step, ih _ (by simpa [dKeys] using hnod.2)]
      by_cases hk : k1 = k
      · subst hk
        have he' : dget e' k1 = none :=
          dget_none_of_not_mem k1 e' (by simpa [dKeys] using hnod.1)
        simp [dget, he', dget_dset]
      · simp only [dget, if_neg hk]
        cases dget e' k with
        | some v => rfl
        | none => simp [dget_dset, hk]

theorem dget_merged_values (values : List (String × Frac)) (k : String)
    (hnod : (dKeys values).Nodup) :
    dget (merged_values values) k = (dget values k).or (dget CONSTANTS k) :=
  dget_dUpdate k values CONSTANTS hnod

theorem dget_requiredOf (m : List (String × Frac)) (k : String) :
    ∀ (eqVars : List String),
      dget (requiredOf eqVars m) k =
        if k ∈ eqVars ∧ (dget m k).isSome then dget m k else none := by
  intro eqVars
  induction eqVars with
  | nil => simp [requiredOf, dget]
  | cons v vs ih =>
      cases hmv : dget m v with
      | some x =>
          have step : requiredOf (v :: vs) m = (v, x) :: requiredOf vs m := by
            simp [requiredOf, hmv]
          rw [step]
          by_cases hvk : v = k
          · subst hvk
            simp [dget, hmv]
          · simp only [dget, if_neg hvk, ih]
            by_cases hkvs : k ∈ vs
            · have hmem : k ∈ v :: vs := List.mem_cons_of_mem _ hkvs
              simp [hkvs, hmem]
            · have hnc : k ∉ v :: vs := by
                simp only [List.mem_cons]
                push_neg
                exact ⟨fun h : k = v => hvk h.symm, hkvs⟩
              simp [hkvs, hnc]
      | none =>
          have step : requiredOf (v :: vs) m = requiredOf vs m := by
            simp [requiredOf, hmv]
          rw [step, ih]
          by_cases hvk : v = k
          · subst hvk
            simp [hmv]
          · by_cases hkvs : k ∈ vs
            · have hmem : k ∈ v :: vs := List.mem_cons_of_mem _ hkvs
              simp [hkvs, hmem]
            · have hnc : k ∉ v :: vs := by
                simp only [List.mem_cons]
                push_neg
                exact ⟨fun h : k = v => hvk h.symm, hkvs⟩
              simp [hkvs, hnc]

/-- C9: `solve_for` raises the missing-solver error exactly when the
target has no entry in the equation's solve table; otherwise the result
is the solver applied to the merged value map, in which user values
override constants on collision and every key outside the declared
variable list has been dropped. -/
theorem claim_C9 {α : Type}
    (solveTab : List (String × (List (String × Frac) → α)))
    (eqVars : List String) (target : String) (values : List (String × Frac))
    (hnod : (dKeys values).Nodup) :
    (solve_for solveTab eqVars target values = .error .missingSolver ↔
      dget solveTab target = none) ∧
    (∀ f, dget solveTab target = some f →
      solve_for solveTab eqVars target values =
        .ok (f (requiredOf eqVars (merged_values values)))) ∧
    (∀ k, dget (requiredOf eqVars (merged_values values)) k =
      if k ∈ eqVars then (dget values k).or (dget CONSTANTS k)
      else none) := by
  refine ⟨?_, ?_, ?_⟩
  · unfold solve_for
    cases h : dget solveTab target with
    | none => simp
    | some f => simp
  · intro f hf
    unfold solve_for
    rw [hf]
  · intro k
    rw [dget_requiredOf]
    have hm := dget_merged_values values k hnod
    by_cases hk : k ∈ eqVars
    · cases hv : dget values k with
      | some v =>
          have hs : (dget (merged_values values) k).isSome := by
            rw [hm, hv]; rfl
          rw [if_pos ⟨hk, hs⟩, if_pos hk, hm, hv]
      | none =>
          cases hc : dget CONSTANTS k with
          | some v =>
              have hs : (dget (merged_values values) k).isSome := by
                rw [hm, hv, hc]; rfl
              rw [if_pos ⟨hk, hs⟩, if_pos hk, hm, hv, hc]
          | none =>
              have hs : ¬ (k ∈ eqVars ∧ (dget (merged_values values) k).isSome = true) := by
                rw [hm, hv, hc]
                simp
              simp only [hk, hv, hc, eq_self_iff_true, true_and]
              rw [hm, hv, hc]
              simp
    · have hs : ¬ (k ∈ eqVars ∧ (dget (merged_values values) k).isSome = true) :=
        fun h => hk h.1
      rw [if_neg hs, if_neg hk]

/-- Witness for C9 on a one-target solve table. -/
theorem claim_C9_witness :
    solve_for [("Q", fun m => dGetD m "m" q0)] ["Q", "m"] "Q"
        [("m", ⟨2, 1⟩)] =
      .ok ((fun m => dGetD m "m" q0)
        (requiredOf ["Q", "m"] (merged_values [("m", ⟨2, 1⟩)]))) :=
  (claim_C9 [("Q", fun m => dGetD m "m" q0)] ["Q", "m"] "Q" [("m", ⟨2, 1⟩)]
    (by decide)).2.1 _ rfl


theorem foldl_pick_mem {γ : Type} (f : Option γ → γ → Option γ)
    (hf : ∀ acc x p, f acc x = some p → p = x ∨ acc = some p) :
    ∀ (l : List γ) (acc : Option γ) (p : γ),
      l.foldl f acc = some p → p ∈ l ∨ acc = some p := by
  intro l
  induction l with
  | nil => intro acc p h; exact Or.inr h
  | cons x t ih =>
      intro acc p h
      rw [List.foldl_cons] at h
      rcases ih (f acc x) p h with hm | hx
      · exact Or.inl (List.mem_cons_of_mem _ hm)
      · rcases hf acc x p hx with he | ha
        · exact Or.inl (he ▸ List.mem_cons_self _ _)
        · exact Or.inr ha

theorem getCloseMatch_mem {w : String} {ps : List String} {c : Frac}
    {b : String} (h : getCloseMatch w ps c = some b) : b ∈ ps := by
  unfold getCloseMatch at h
  simp only [Option.map_eq_some'] at h
  obtain ⟨p, hp, hpb⟩ := h
  have hf : ∀ (acc : Option (Frac × String)) (x p : Frac × String),
      (fun best p =>
        match best with
        | none => some p
        | some q =>
            if q.1.blt p.1 || (q.1.beq p.1 && pyStrLt q.2 p.2) then some p
            else some q) acc x = some p → p = x ∨ acc = some p := by
    intro acc x p hax
    cases acc with
    | none =>
        simp only [] at hax
        exact Or.inl (Option.some.inj hax).symm
    | some q =>
        simp only [] at hax
        by_cases hcond : (q.1.blt x.1 || (q.1.beq x.1 && pyStrLt q.2 x.2)) = true
        · rw [if_pos hcond] at hax
          exact Or.inl (Option.some.inj hax).symm
        · rw [if_neg hcond] at hax
          exact Or.inr (by rw [hax])
  rcases foldl_pick_mem _ hf _ none p hp with hm | hnone
  · rw [List.mem_filterMap] at hm
    obtain ⟨x, hx, hfx⟩ := hm
    by_cases hcond : (c.ble (realQuickRatio x.data w.data) &&
        c.ble (quickRatio x.data w.data) && c.ble (seqRatio x.data w.data)) = true
    · rw [if_pos hcond] at hfx
      have : p = (seqRatio x.data w.data, x) := (Option.some.inj hfx).symm
      rw [← hpb, this]
      exact hx
    · rw [if_neg hcond] at hfx
      exact absurd hfx (by simp)
  · exact absurd hnone (by simp)

theorem dget_of_mem_dKeys {β : Type} {a : String} :
    ∀ {d : List (String × β)}, a ∈ dKeys d → ∃ v, dget d a = some v := by
  intro d
  induction d with
  | nil => intro h; simp [dKeys] at h
  | cons kv t ih =>
      intro h
      obtain ⟨k1, v1⟩ := kv
      by_cases hk : k1 = a
      · exact ⟨v1, by simp [dget, hk]⟩
      · have : a ∈ dKeys t := by
          simp only [dKeys, List.map_cons, List.mem_cons] at h
          rcases h with h | h
          · exact absurd h.symm hk
          · simpa [dKeys] using h
        obtain ⟨v, hv⟩ := ih this
        exact ⟨v, by simp [dget, hk, hv]⟩

set_option maxRecDepth 40000 in
set_option maxHeartbeats 2000000 in
/-- C8 (amended): `normalize_var` is total — every input produces a result
(modelling the source's only fallible operation, the final table
subscript, which is proven unreachable) — but idempotence fails in
general: an alias shadowed by a later registry entry (e.g. `"mass"` →
`"m"` → `"M_molar"`) maps to a non-fixed point.  Idempotence does hold
on every input whose output again resolves to itself in the alias
table (a sufficient condition, not a characterisation). -/
theorem claim_C8 :
    (∀ x : String, ∃ y, normalize_var x = .ok y) ∧
    (∀ x y : String, normalize_var x = .ok y →
      dget ALIAS_TO_CANON (pyLower (pyStrip y)) = some y →
      normalize_var y = .ok y) := by
  constructor
  · intro x
    by_cases hs : pyStrip x = ""
    · exact ⟨pyStrip x, by simp only [normalize_var, if_pos hs]⟩
    · cases h1 : dget ALIAS_TO_CANON (pyLower (pyStrip x)) with
      | some c => exact ⟨c, by simp only [normalize_var, if_neg hs, h1]⟩
      | none =>
          cases h2 : minCanon (startsList (pyLower (pyStrip x))) with
          | some c => exact ⟨c, by simp only [normalize_var, if_neg hs, h1, h2]⟩
          | none =>
              cases h3 : getCloseMatch (pyLower (pyStrip x))
                  (dKeys ALIAS_TO_CANON) (Frac.normMk 3 4) with
              | some b =>
                  obtain ⟨v, hv⟩ := dget_of_mem_dKeys (getCloseMatch_mem h3)
                  exact ⟨v, by simp only [normalize_var, if_neg hs, h1, h2, h3, hv]⟩
              | none =>
                  exact ⟨pyStrip x, by simp only [normalize_var, if_neg hs, h1, h2, h3]⟩
  · intro x y _ hy
    by_cases hs : pyStrip y = ""
    · rw [hs] at hy
      have hnone : dget ALIAS_TO_CANON (pyLower "") = none := by
        rw [dget_alias_eq_last]
        decide
      rw [hnone] at hy
      exact absurd hy (by simp)
    · simp only [normalize_var, if_neg hs, hy]

set_option maxRecDepth 40000 in
set_option maxHeartbeats 2000000 in
/-- C8 counterexample: idempotence fails at `"mass"`:
`normalize_var "mass" = "m"` but `normalize_var "m" = "M_molar"`. -/
theorem claim_C8_counterexample :
    normalize_var "mass" = .ok "m" ∧ normalize_var "m" = .ok "M_molar" ∧
    ("M_molar" : String) ≠ "m" :=
  ⟨normalize_var_hit (y := "m") (by decide) (by decide),
    normalize_var_hit (y := "M_molar") (by decide) (by decide), by decide⟩

set_option maxRecDepth 40000 in
set_option maxHeartbeats 2000000 in
/-- Witness for C8: totality at `"q"`, and idempotence at the resolved
output `"q_scat"` (which the table fixes). -/
theorem claim_C8_witness :
    (∃ y, normalize_var "q" = .ok y) ∧ normalize_var "q_scat" = .ok "q_scat" :=
  ⟨claim_C8.1 "q",
    claim_C8.2 "q" "q_scat" (normalize_var_hit (y := "q_scat") (by decide) (by decide))
      (by rw [dget_alias_eq_last]; decide)⟩


theorem except_pure_ok {ε α : Type} (a : α) :
    (pure a : Except ε α) = Except.ok a := rfl

theorem except_ok_bind {ε α β : Type} (a : α) (f : α → Except ε β) :
    (Except.ok a : Except ε α) >>= f = f a := rfl

theorem except_error_bind {ε α β : Type} (e : ε) (f : α → Except ε β) :
    (Except.error e : Except ε α) >>= f = Except.error e := rfl

theorem except_throw_eq {ε α : Type} (e : ε) :
    (throw e : Except ε α) = Except.error e := rfl

theorem parseFloat_den_pos {l : List Char} {v : Frac}
    (h : parseFloat l = some v) : 0 < v.den := by
  unfold parseFloat at h
  split at h
  · cases h
    exact Frac.ofInt_den_pos _
  · next r2 heq =>
      have h2 : (if List.takeWhile Char.isDigit l = [] ∧ r2 = [] then none
          else some (Frac.dec (natOfDigits (List.takeWhile Char.isDigit l ++ r2))
            r2.length)) = some v := h
      split at h2
      · exact absurd h2 (by simp)
      · cases h2
        exact Frac.dec_den_pos _ _
  · exact absurd h (by simp)

theorem dget_mem {β : Type} {k : String} {v : β} :
    ∀ {d : List (String × β)}, dget d k = some v → (k, v) ∈ d := by
  intro d
  induction d with
  | nil => intro h; simp [dget] at h
  | cons kv t ih =>
      intro h
      obtain ⟨k1, v1⟩ := kv
      by_cases hk : k1 = k
      · subst hk
        simp only [dget, if_pos rfl] at h
        have := Option.some.inj h
        subst this
        exact List.mem_cons_self _ _
      · simp only [dget, if_neg hk] at h
        exact List.mem_cons_of_mem _ (ih h)

theorem dGetD_den_pos {d : List (String × Frac)} {k : String}
    (hd : ∀ kv ∈ d, 0 < (kv.2).den) : 0 < (dGetD d k (Frac.ofInt 0)).den := by
  unfold dGetD
  cases hg : dget d k with
  | none => simp [Frac.ofInt]
  | some v => simpa using hd (k, v) (dget_mem hg)

theorem mem_dset_forall {β : Type} (P : β → Prop) :
    ∀ (d : List (String × β)) (k : String) (v : β),
      (∀ kv ∈ d, P kv.2) → P v → ∀ kv ∈ dset d k v, P kv.2 := by
  intro d
  induction d with
  | nil =>
      intro k v _ hv kv hkv
      simp [dset] at hkv
      rw [hkv]
      exact hv
  | cons kv1 t ih =>
      intro k v hd hv kv hkv
      obtain ⟨k1, v1⟩ := kv1
      by_cases hk : k1 = k
      · simp only [dset, if_pos hk] at hkv
        rcases List.mem_cons.mp hkv with h | h
        · rw [h]; exact hv
        · exact hd kv (List.mem_cons_of_mem _ h)
      · simp only [dset, if_neg hk] at hkv
        rcases List.mem_cons.mp hkv with h | h
        · rw [h]; exact hd (k1, v1) (List.mem_cons_self _ _)
        · exact ih k v (fun kv2 hkv2 => hd kv2 (List.mem_cons_of_mem _ hkv2)) hv kv h

theorem dKeys_cons {β : Type} (k : String) (v : β) (t : List (String × β)) :
    dKeys ((k, v) :: t) = k :: dKeys t := rfl

theorem dKeys_dset {β : Type} (k : String) (v : β) :
    ∀ d : List (String × β),
      dKeys (dset d k v) = if k ∈ dKeys d then dKeys d else dKeys d ++ [k] := by
  intro d
  induction d with
  | nil => simp [dset, dKeys]
  | cons kv1 t ih =>
      obtain ⟨k1, v1⟩ := kv1
      by_cases hk : k1 = k
      · subst hk
        rw [show dset ((k1, v1) :: t) k1 v = (k1, v) :: t from by simp [dset]]
        rw [dKeys_cons, dKeys_cons, if_pos (List.mem_cons_self _ _)]
      · have hne : ¬ k = k1 := fun h => hk h.symm
        rw [show dset ((k1, v1) :: t) k v = (k1, v1) :: dset t k v from by
          simp [dset, hk]]
        rw [dKeys_cons, ih, dKeys_cons]
        by_cases hmem : k ∈ dKeys t
        · rw [if_pos hmem, if_pos (List.mem_cons_of_mem _ hmem)]
        · rw [if_neg hmem, if_neg (by simp [hne, hmem]), List.cons_append]

theorem nodup_dKeys_dset {β : Type} {d : List (String × β)} (k : String) (v : β)
    (hd : (dKeys d).Nodup) : (dKeys (dset d k v)).Nodup := by
  rw [dKeys_dset]
  by_cases hmem : k ∈ dKeys d
  · rwa [if_pos hmem]
  · rw [if_neg hmem, List.nodup_append]
    exact ⟨hd, List.nodup_singleton _, by simpa using hmem⟩

theorem parse_side_fold (sign : Frac) (hs : 0 < sign.den) :
    ∀ (ts : List (List Char)) (acc d : List (String × Frac)),
      (∀ kv ∈ acc, 0 < (kv.2).den) → (dKeys acc).Nodup →
      ts.foldlM (sideStep sign) acc = Except.ok d →
      ((∀ kv ∈ d, 0 < (kv.2).den) ∧ (dKeys d).Nodup ∧
       ∀ k, (dGetD d k (Frac.ofInt 0)).val =
         (dGetD acc k (Frac.ofInt 0)).val + sign.val * contribSum k ts) := by
  intro ts
  induction ts with
  | nil =>
      intro acc d hden hnod h
      rw [List.foldlM_nil, except_pure_ok] at h
      cases h
      refine ⟨hden, hnod, fun k => ?_⟩
      simp [contribSum]
  | cons t ts ih =>
      intro acc d hden hnod h
      rw [List.foldlM_cons] at h
      by_cases htt : stripChars t = []
      · simp only [sideStep, if_pos htt, except_pure_ok, except_ok_bind] at h
        obtain ⟨h1, h2, h3⟩ := ih acc d hden hnod h
        refine ⟨h1, h2, fun k => ?_⟩
        rw [h3 k]
        simp [contribSum, termContrib, htt]
      · cases hmt : matchTerm (stripChars t) with
        | some cs =>
            obtain ⟨c, sp⟩ := cs
            by_cases hc : c = []
            · subst hc
              simp only [sideStep, if_neg htt, hmt, except_pure_ok,
                except_ok_bind] at h
              have hnu : (0 : Int) < (Frac.ofInt 1).den := by decide
              have hwd : 0 < ((dGetD acc (String.mk sp) (Frac.ofInt 0)).add
                  (sign.mul (Frac.ofInt 1))).den :=
                Frac.add_den_pos (dGetD_den_pos hden) (Frac.mul_den_pos hs hnu)
              obtain ⟨h1, h2, h3⟩ := ih _ d
                (mem_dset_forall (fun w => 0 < w.den) acc (String.mk sp) _ hden hwd)
                (nodup_dKeys_dset _ _ hnod) h
              refine ⟨h1, h2, fun k => ?_⟩
              rw [h3 k]
              have hget : dGetD (dset acc (String.mk sp)
                  ((dGetD acc (String.mk sp) (Frac.ofInt 0)).add
                    (sign.mul (Frac.ofInt 1)))) k (Frac.ofInt 0) =
                  if String.mk sp = k then
                    (dGetD acc (String.mk sp) (Frac.ofInt 0)).add
                      (sign.mul (Frac.ofInt 1))
                  else dGetD acc k (Frac.ofInt 0) := by
                unfold dGetD
                rw [dget_dset]
                by_cases hx : String.mk sp = k <;> simp [hx]
              rw [hget]
              have hcs2 : contribSum k (t :: ts) =
                  (if String.mk sp = k then (Frac.ofInt 1).val else 0) +
                    contribSum k ts := by
                simp [contribSum, termContrib, htt, hmt]
              rw [hcs2]
              by_cases hx : String.mk sp = k
              · rw [if_pos hx, if_pos hx,
                  Frac.val_add (dGetD_den_pos hden).ne' (Frac.mul_den_pos hs hnu).ne',
                  Frac.val_mul hs.ne' hnu.ne', hx]
                ring
              · rw [if_neg hx, if_neg hx]
                ring
            · cases hpf : parseFloat c with
              | none =>
                  simp only [sideStep, if_neg htt, hmt, if_neg hc, hpf,
                    except_throw_eq, except_error_bind] at h
                  exact Except.noConfusion h
              | some v =>
                  simp only [sideStep, if_neg htt, hmt, if_neg hc, hpf,
                    except_pure_ok, except_ok_bind] at h
                  have hnu : 0 < v.den := parseFloat_den_pos hpf
                  have hwd : 0 < ((dGetD acc (String.mk sp) (Frac.ofInt 0)).add
                      (sign.mul v)).den :=
                    Frac.add_den_pos (dGetD_den_pos hden) (Frac.mul_den_pos hs hnu)
                  obtain ⟨h1, h2, h3⟩ := ih _ d
                    (mem_dset_forall (fun w => 0 < w.den) acc (String.mk sp) _
                      hden hwd)
                    (nodup_dKeys_dset _ _ hnod) h
                  refine ⟨h1, h2, fun k => ?_⟩
                  rw [h3 k]
                  have hget : dGetD (dset acc (String.mk sp)
                      ((dGetD acc (String.mk sp) (Frac.ofInt 0)).add
                        (sign.mul v))) k (Frac.ofInt 0) =
                      if String.mk sp = k then
                        (dGetD acc (String.mk sp) (Frac.ofInt 0)).add (sign.mul v)
                      else dGetD acc k (Frac.ofInt 0) := by
                    unfold dGetD
                    rw [dget_dset]
                    by_cases hx : String.mk sp = k <;> simp [hx]
                  rw [hget]
                  have hcs2 : contribSum k (t :: ts) =
                      (if String.mk sp = k then v.val else 0) + contribSum k ts := by
                    simp [contribSum, termContrib, htt, hmt, hc, hpf]
                  rw [hcs2]
                  by_cases hx : String.mk sp = k
                  · rw [if_pos hx, if_pos hx,
                      Frac.val_add (dGetD_den_pos hden).ne'
                        (Frac.mul_den_pos hs hnu).ne',
                      Frac.val_mul hs.ne' hnu.ne', hx]
                    ring
                  · rw [if_neg hx, if_neg hx]
                    ring
        | none =>
            simp only [sideStep, if_neg htt, hmt, except_pure_ok,
              except_ok_bind] at h
            have hnu : (0 : Int) < (Frac.ofInt 1).den := by decide
            have hwd : 0 < ((dGetD acc (String.mk (stripChars t)) (Frac.ofInt 0)).add
                (sign.mul (Frac.ofInt 1))).den :=
              Frac.add_den_pos (dGetD_den_pos hden) (Frac.mul_den_pos hs hnu)
            obtain ⟨h1, h2, h3⟩ := ih _ d
              (mem_dset_forall (fun w => 0 < w.den) acc (String.mk (stripChars t)) _
                hden hwd)
              (nodup_dKeys_dset _ _ hnod) h
            refine ⟨h1, h2, fun k => ?_⟩
            rw [h3 k]
            have hget : dGetD (dset acc (String.mk (stripChars t))
                ((dGetD acc (String.mk (stripChars t)) (Frac.ofInt 0)).add
                  (sign.mul (Frac.ofInt 1)))) k (Frac.ofInt 0) =
                if String.mk (stripChars t) = k then
                  (dGetD acc (String.mk (stripChars t)) (Frac.ofInt 0)).add
                    (sign.mul (Frac.ofInt 1))
                else dGetD acc k (Frac.ofInt 0) := by
              unfold dGetD
              rw [dget_dset]
              by_cases hx : String.mk (stripChars t) = k <;> simp [hx]
            rw [hget]
            have hcs2 : contribSum k (t :: ts) =
                (if String.mk (stripChars t) = k then (Frac.ofInt 1).val else 0) +
                  contribSum k ts := by
              simp [contribSum, termContrib, htt, hmt]
            rw [hcs2]
            by_cases hx : String.mk (stripChars t) = k
            · rw [if_pos hx, if_pos hx,
                Frac.val_add (dGetD_den_pos hden).ne' (Frac.mul_den_pos hs hnu).ne',
                Frac.val_mul hs.ne' hnu.ne', hx]
              ring
            · rw [if_neg hx, if_neg hx]
              ring

theorem parse_side_spec {side : List Char} {sign : Frac} {d : List (String × Frac)}
    (hs : 0 < sign.den) (h : parse_side side sign = Except.ok d) :
    (∀ kv ∈ d, 0 < (kv.2).den) ∧ (dKeys d).Nodup ∧
    ∀ k, (dGetD d k (Frac.ofInt 0)).val = sign.val * contribSum k (splitPlus side) := by
  unfold parse_side at h
  obtain ⟨h1, h2, h3⟩ :=
    parse_side_fold sign hs (splitPlus side) [] d (by simp) (by simp [dKeys]) h
  refine ⟨h1, h2, fun k => ?_⟩
  have := h3 k
  simpa [dGetD, dget, Frac.val, Frac.ofInt] using this

theorem addInto_spec :
    ∀ (e d : List (String × Frac)),
      (∀ kv ∈ d, 0 < (kv.2).den) → (∀ kv ∈ e, 0 < (kv.2).den) →
      (dKeys e).Nodup →
      ((∀ kv ∈ addInto d e, 0 < (kv.2).den) ∧
       ∀ k, (dGetD (addInto d e) k (Frac.ofInt 0)).val =
         (dGetD d k (Frac.ofInt 0)).val + (dGetD e k (Frac.ofInt 0)).val) := by
  intro e
  induction e with
  | nil =>
      intro d hd _ _
      refine ⟨hd, fun k => ?_⟩
      simp [addInto, dGetD, dget, Frac.ofInt, Frac.val]
  | cons kv t ih =>
      intro d hd he hnod
      obtain ⟨k1, v1⟩ := kv
      have hv1 : 0 < v1.den := he (k1, v1) (List.mem_cons_self _ _)
      have hnodc : k1 ∉ dKeys t ∧ (dKeys t).Nodup :=
        List.nodup_cons.mp (by rwa [dKeys_cons] at hnod)
      have hd' : ∀ kv ∈ dset d k1 ((dGetD d k1 (Frac.ofInt 0)).add v1),
          0 < (kv.2).den :=
        mem_dset_forall (fun w => 0 < w.den) d k1 _ hd
          (Frac.add_den_pos (dGetD_den_pos hd) hv1)
      have he' : ∀ kv ∈ t, 0 < (kv.2).den :=
        fun kv hkv => he kv (List.mem_cons_of_mem _ hkv)
      obtain ⟨H1, H2⟩ := ih (dset d k1 ((dGetD d k1 (Frac.ofInt 0)).add v1))
        hd' he' hnodc.2
      have hunf : addInto d ((k1, v1) :: t) =
          addInto (dset d k1 ((dGetD d k1 (Frac.ofInt 0)).add v1)) t := by
        simp [addInto]
      constructor
      · intro kv hkv
        exact H1 kv (by rwa [hunf] at hkv)
      · intro k
        rw [hunf, H2 k]
        by_cases hx : k1 = k
        · subst hx
          have h1 : dGetD (dset d k1 ((dGetD d k1 (Frac.ofInt 0)).add v1)) k1
              (Frac.ofInt 0) = (dGetD d k1 (Frac.ofInt 0)).add v1 := by
            unfold dGetD
            rw [dget_dset]
            simp
          have h2 : dget t k1 = none := dget_none_of_not_mem k1 t hnodc.1
          have h3 : dGetD ((k1, v1) :: t) k1 (Frac.ofInt 0) = v1 := by
            simp [dGetD, dget]
          have h4 : dGetD t k1 (Frac.ofInt 0) = Frac.ofInt 0 := by
            simp [dGetD, h2]
          rw [h1, h3, h4, Frac.val_add (dGetD_den_pos hd).ne' hv1.ne',
            Frac.val_ofInt]
          push_cast
          ring
        · have h1 : dGetD (dset d k1 ((dGetD d k1 (Frac.ofInt 0)).add v1)) k
              (Frac.ofInt 0) = dGetD d k (Frac.ofInt 0) := by
            unfold dGetD
            rw [dget_dset, if_neg hx]
          have h3 : dGetD ((k1, v1) :: t) k (Frac.ofInt 0) =
              dGetD t k (Frac.ofInt 0) := by
            simp [dGetD, dget, if_neg hx]
          rw [h1, h3]

set_option maxRecDepth 40000 in
/-- C5: `parse_reaction "N2 + 3 H2 -> 2 NH3"` returns exactly
`{"N2": -1, "H2": -3, "NH3": 2}`; in general every returned coefficient
equals the product-side ν-sum of the species minus its reactant-side
ν-sum, so reactant coefficients appear negated and product coefficients
positive. -/
theorem claim_C5 :
    parse_reaction "N2 + 3 H2 -> 2 NH3" =
      Except.ok [("N2", Frac.ofInt (-1)), ("H2", Frac.ofInt (-3)),
        ("NH3", Frac.ofInt 2)] ∧
    ∀ (s : String) (st : List (String × Frac)),
      parse_reaction s = Except.ok st →
      ∀ k, (dGetD st k (Frac.ofInt 0)).val =
        contribSum k (splitPlus (reactionSides s).2) -
        contribSum k (splitPlus (reactionSides s).1) := by
  constructor
  · decide
  · intro s st h k
    simp only [parse_reaction] at h
    by_cases ha : hasArrowSub (arrowExpand s.data) = true
    · rw [if_neg (by simp [ha])] at h
      cases hdl : parse_side (stripChars (splitArrow (arrowExpand s.data)).1)
          (Frac.ofInt (-1)) with
      | error e1 =>
          rw [hdl, except_error_bind] at h
          exact Except.noConfusion h
      | ok dl =>
          simp only [hdl, except_ok_bind] at h
          cases hdr : parse_side (stripChars (splitArrow (arrowExpand s.data)).2)
              (Frac.ofInt 1) with
          | error e2 =>
              rw [hdr, except_error_bind] at h
              exact Except.noConfusion h
          | ok dr =>
              simp only [hdr, except_ok_bind] at h
              by_cases hos : oneSignedMap (addInto (addInto [] dl) dr) = true
              · rw [if_pos hos, except_throw_eq] at h
                exact Except.noConfusion h
              · rw [if_neg hos, except_pure_ok] at h
                injection h with h'
                subst h'
                obtain ⟨hd_dl, hn_dl, hv_dl⟩ := parse_side_spec (by decide) hdl
                obtain ⟨hd_dr, hn_dr, hv_dr⟩ := parse_side_spec (by decide) hdr
                obtain ⟨hA1, hA2⟩ := addInto_spec dl [] (by simp) hd_dl hn_dl
                obtain ⟨hB1, hB2⟩ := addInto_spec dr (addInto [] dl) hA1 hd_dr hn_dr
                rw [hB2 k, hA2 k, hv_dl k, hv_dr k]
                have hz : (dGetD ([] : List (String × Frac)) k (Frac.ofInt 0)).val
                    = 0 := by
                  simp [dGetD, dget, Frac.ofInt, Frac.val]
                rw [hz, Frac.val_ofInt, Frac.val_ofInt]
                simp only [reactionSides]
                push_cast
                ring
    · rw [if_pos (by simp [ha]), except_throw_eq] at h
      exact Except.noConfusion h

set_option maxRecDepth 40000 in
/-- Witness for C5's general conjunct at the concrete reaction
`"A -> 2 B"` and species `"B"`. -/
theorem claim_C5_witness :
    (dGetD [("A", Frac.ofInt (-1)), ("B", Frac.ofInt 2)] "B" (Frac.ofInt 0)).val =
      contribSum "B" (splitPlus (reactionSides "A -> 2 B").2) -
      contribSum "B" (splitPlus (reactionSides "A -> 2 B").1) :=
  claim_C5.2 "A -> 2 B" [("A", Frac.ofInt (-1)), ("B", Frac.ofInt 2)]
    (by decide) "B"


theorem parse_side_fold_err (sign : Frac) :
    ∀ (ts : List (List Char)) (acc : List (String × Frac)),
      if ts.any termBad then
        ts.foldlM (sideStep sign) acc = Except.error ParseErr.badFloat
      else ∃ d, ts.foldlM (sideStep sign) acc = Except.ok d := by
  intro ts
  induction ts with
  | nil =>
      intro acc
      simp only [List.any_nil, if_neg Bool.false_ne_true]
      exact ⟨acc, rfl⟩
  | cons t ts ih =>
      intro acc
      rw [List.foldlM_cons]
      by_cases htt : stripChars t = []
      · have hbad : termBad t = false := by
          unfold termBad
          rw [htt]
          simp [matchTerm, stripChars, isPySpace]
        have hany : (t :: ts).any termBad = ts.any termBad := by
          rw [List.any_cons, hbad, Bool.false_or]
        rw [hany]
        simp only [sideStep, if_pos htt, except_pure_ok, except_ok_bind]
        exact ih acc
      · cases hmt : matchTerm (stripChars t) with
        | some cs =>
            obtain ⟨c, sp⟩ := cs
            by_cases hc : c = []
            · subst hc
              have hbad : termBad t = false := by
                unfold termBad
                rw [hmt]
                simp
              have hany : (t :: ts).any termBad = ts.any termBad := by
                rw [List.any_cons, hbad, Bool.false_or]
              rw [hany]
              simp only [sideStep, if_neg htt, hmt, except_pure_ok, except_ok_bind]
              exact ih _
            · cases hpf : parseFloat c with
              | none =>
                  have hbad : termBad t = true := by
                    unfold termBad
                    rw [hmt]
                    simp [hc, hpf]
                  have hany : (t :: ts).any termBad = true := by
                    rw [List.any_cons, hbad, Bool.true_or]
                  rw [hany, if_pos rfl]
                  simp only [sideStep, if_neg htt, hmt, if_neg hc, hpf,
                    except_throw_eq, except_error_bind]
              | some v =>
                  have hbad : termBad t = false := by
                    unfold termBad
                    rw [hmt]
                    simp [hc, hpf]
                  have hany : (t :: ts).any termBad = ts.any termBad := by
                    rw [List.any_cons, hbad, Bool.false_or]
                  rw [hany]
                  simp only [sideStep, if_neg htt, hmt, if_neg hc, hpf,
                    except_pure_ok, except_ok_bind]
                  exact ih _
        | none =>
            have hbad : termBad t = false := by
              unfold termBad
              rw [hmt]
            have hany : (t :: ts).any termBad = ts.any termBad := by
              rw [List.any_cons, hbad, Bool.false_or]
            rw [hany]
            simp only [sideStep, if_neg htt, hmt, except_pure_ok, except_ok_bind]
            exact ih _

theorem parse_side_err (side : List Char) (sign : Frac) :
    (sideHasBad side = true →
      parse_side side sign = Except.error ParseErr.badFloat) ∧
    (sideHasBad side = false → ∃ d, parse_side side sign = Except.ok d) := by
  have := parse_side_fold_err sign (splitPlus side) []
  unfold parse_side sideHasBad
  constructor
  · intro hb
    rwa [if_pos hb] at this
  · intro hb
    rwa [if_neg (by simp [hb])] at this

/-- C6 (amended): `parse_reaction` fails exactly when (i) no arrow token
is present after normalisation, (ii) some additive term has the
coefficient text `"."` — whose `float()` conversion raises — or (iii)
both sides parse and the combined signed map is one-signed; and the
no-arrow error is reported exactly when the arrow is missing.  (The
original claim omitted case (ii).) -/
theorem claim_C6 :
    ∀ s : String,
      ((∃ e, parse_reaction s = Except.error e) ↔
        hasArrowSub (arrowExpand s.data) = false ∨
        sideHasBad (reactionSides s).1 = true ∨
        sideHasBad (reactionSides s).2 = true ∨
        (∃ dl dr,
          parse_side (reactionSides s).1 (Frac.ofInt (-1)) = Except.ok dl ∧
          parse_side (reactionSides s).2 (Frac.ofInt 1) = Except.ok dr ∧
          oneSignedMap (addInto (addInto [] dl) dr) = true)) ∧
      (parse_reaction s = Except.error ParseErr.noArrow ↔
        hasArrowSub (arrowExpand s.data) = false) := by
  intro s
  by_cases ha : hasArrowSub (arrowExpand s.data) = true
  · have harr : hasArrowSub (arrowExpand s.data) = false ↔ False := by
      simp [ha]
    have hred : parse_reaction s =
        (parse_side (stripChars (splitArrow (arrowExpand s.data)).1)
          (Frac.ofInt (-1)) >>= fun dl =>
         parse_side (stripChars (splitArrow (arrowExpand s.data)).2)
          (Frac.ofInt 1) >>= fun dr =>
         if oneSignedMap (addInto (addInto [] dl) dr) then
           Except.error ParseErr.oneSigned
         else Except.ok (addInto (addInto [] dl) dr)) := by
      simp only [parse_reaction]
      rw [if_neg (by simp [ha])]
      apply bind_congr
      intro dl
      apply bind_congr
      intro dr
      by_cases hos : oneSignedMap (addInto (addInto [] dl) dr) = true
      · rw [if_pos hos, if_pos hos, except_throw_eq]
      · rw [if_neg hos, if_neg hos, except_pure_ok]
    have hside1 : (reactionSides s).1 =
        stripChars (splitArrow (arrowExpand s.data)).1 := rfl
    have hside2 : (reactionSides s).2 =
        stripChars (splitArrow (arrowExpand s.data)).2 := rfl
    cases hdl : parse_side (stripChars (splitArrow (arrowExpand s.data)).1)
        (Frac.ofInt (-1)) with
    | error e1 =>
        have hb1 : sideHasBad (reactionSides s).1 = true := by
          by_cases hb : sideHasBad (reactionSides s).1 = true
          · exact hb
          · obtain ⟨d0, hd0⟩ := (parse_side_err _ _).2 (by
              cases hq : sideHasBad (reactionSides s).1
              · rfl
              · exact absurd hq hb)
            rw [hside1] at hd0
            rw [hd0] at hdl
            exact Except.noConfusion hdl
        have he1 : e1 = ParseErr.badFloat := by
          have := (parse_side_err (reactionSides s).1 (Frac.ofInt (-1))).1 hb1
          rw [hside1, hdl] at this
          exact Except.error.inj this
        subst he1
        have hpr : parse_reaction s = Except.error ParseErr.badFloat := by
          rw [hred, hdl, except_error_bind]
        constructor
        · constructor
          · intro _
            exact Or.inr (Or.inl hb1)
          · intro _
            exact ⟨_, hpr⟩
        · rw [hpr]
          constructor
          · intro hh
            exact absurd (Except.error.inj hh) (by simp)
          · intro hh
            rw [hh] at ha
            exact Bool.noConfusion ha
    | ok dl =>
        cases hdr : parse_side (stripChars (splitArrow (arrowExpand s.data)).2)
            (Frac.ofInt 1) with
        | error e2 =>
            have hb2 : sideHasBad (reactionSides s).2 = true := by
              by_cases hb : sideHasBad (reactionSides s).2 = true
              · exact hb
              · obtain ⟨d0, hd0⟩ := (parse_side_err _ _).2 (by
                  cases hq : sideHasBad (reactionSides s).2
                  · rfl
                  · exact absurd hq hb)
                rw [hside2] at hd0
                rw [hd0] at hdr
                exact Except.noConfusion hdr
            have hpr : parse_reaction s = Except.error ParseErr.badFloat := by
              have he2 : e2 = ParseErr.badFloat := by
                have := (parse_side_err (reactionSides s).2 (Frac.ofInt 1)).1 hb2
                rw [hside2, hdr] at this
                exact Except.error.inj this
              subst he2
              rw [hred, hdl, except_ok_bind, hdr, except_error_bind]
            constructor
            · constructor
              · intro _
                exact Or.inr (Or.inr (Or.inl hb2))
              · intro _
                exact ⟨_, hpr⟩
            · rw [hpr]
              constructor
              · intro hh
                exact absurd (Except.error.inj hh) (by simp)
              · intro hh
                rw [hh] at ha
                exact Bool.noConfusion ha
        | ok dr =>
            by_cases hos : oneSignedMap (addInto (addInto [] dl) dr) = true
            · have hpr : parse_reaction s = Except.error ParseErr.oneSigned := by
                rw [hred, hdl, except_ok_bind, hdr, except_ok_bind, if_pos hos]
              constructor
              · constructor
                · intro _
                  refine Or.inr (Or.inr (Or.inr ⟨dl, dr, ?_, ?_, hos⟩))
                  · rw [hside1]; exact hdl
                  · rw [hside2]; exact hdr
                · intro _
                  exact ⟨_, hpr⟩
              · rw [hpr]
                constructor
                · intro hh
                  exact absurd (Except.error.inj hh) (by simp)
                · intro hh
                  rw [hh] at ha
                  exact Bool.noConfusion ha
            · have hpr : parse_reaction s =
                  Except.ok (addInto (addInto [] dl) dr) := by
                rw [hred, hdl, except_ok_bind, hdr, except_ok_bind, if_neg hos]
              constructor
              · constructor
                · intro ⟨e, he⟩
                  rw [hpr] at he
                  exact Except.noConfusion he
                · intro hcase
                  rcases hcase with hh | hh | hh | ⟨dl2, dr2, h1, h2, h3⟩
                  · rw [hh] at ha
                    exact Bool.noConfusion ha
                  · have := (parse_side_err (reactionSides s).1
                      (Frac.ofInt (-1))).1 hh
                    rw [hside1, hdl] at this
                    exact Except.noConfusion this
                  · have := (parse_side_err (reactionSides s).2
                      (Frac.ofInt 1)).1 hh
                    rw [hside2, hdr] at this
                    exact Except.noConfusion this
                  · rw [hside1, hdl] at h1
                    rw [hside2, hdr] at h2
                    have hdl2 : dl = dl2 := Except.ok.inj h1
                    have hdr2 : dr = dr2 := Except.ok.inj h2
                    rw [← hdl2, ← hdr2] at h3
                    exact absurd h3 hos
              · rw [hpr]
                constructor
                · intro hh
                  exact Except.noConfusion hh
                · intro hh
                  rw [hh] at ha
                  exact Bool.noConfusion ha
  · have ha0 : hasArrowSub (arrowExpand s.data) = false := by
      cases hq : hasArrowSub (arrowExpand s.data)
      · rfl
      · exact absurd hq ha
    have hpr : parse_reaction s = Except.error ParseErr.noArrow := by
      simp only [parse_reaction]
      rw [if_pos (by simp [ha0]), except_throw_eq]
    refine ⟨⟨fun _ => Or.inl ha0, fun _ => ⟨_, hpr⟩⟩, ?_⟩
    rw [hpr]
    exact ⟨fun _ => ha0, fun _ => rfl⟩

set_option maxRecDepth 40000 in
/-- C6 counterexample to the original biconditional: `".A -> B"` has an
arrow and a two-signed candidate map, yet `parse_reaction` still fails —
with the bare-`"."` float conversion error. -/
theorem claim_C6_counterexample :
    hasArrowSub (arrowExpand ".A -> B".data) = true ∧
    parse_reaction ".A -> B" = Except.error ParseErr.badFloat :=
  ⟨by decide, by decide⟩

set_option maxRecDepth 40000 in
/-- Witness for C6 at a concrete arrow-free input. -/
theorem claim_C6_witness :
    parse_reaction "A B" = Except.error ParseErr.noArrow :=
  ((claim_C6 "A B").2).mpr (by decide)

theorem lexStep_total (a b : Nat) (r1 r2 : Bool) (h : r1 = true ∨ r2 = true) :
    (if b < a then true else if a < b then false else r1) = true ∨
    (if a < b then true else if b < a then false else r2) = true := by
  rcases Nat.lt_trichotomy a b with hab | hab | hab
  · right
    rw [if_pos hab]
  · subst hab
    rw [if_neg (lt_irrefl a), if_neg (lt_irrefl a), if_neg (lt_irrefl a),
      if_neg (lt_irrefl a)]
    exact h
  · left
    rw [if_pos hab]

theorem lexStep_trans (a b c : Nat) (r1 r2 r3 : Bool)
    (hr : r1 = true → r2 = true → r3 = true)
    (h1 : (if b < a then true else if a < b then false else r1) = true)
    (h2 : (if c < b then true else if b < c then false else r2) = true) :
    (if c < a then true else if a < c then false else r3) = true := by
  rcases Nat.lt_trichotomy b a with hba | hba | hba
  · rcases Nat.lt_trichotomy c b with hcb | hcb | hcb
    · rw [if_pos (lt_trans hcb hba)]
    · subst hcb
      rw [if_pos hba]
    · rw [if_neg (Nat.lt_asymm hcb), if_pos hcb] at h2
      exact absurd h2 Bool.false_ne_true
  · subst hba
    rcases Nat.lt_trichotomy c b with hcb | hcb | hcb
    · rw [if_pos hcb]
    · subst hcb
      rw [if_neg (lt_irrefl _), if_neg (lt_irrefl _)] at h1 h2 ⊢
      exact hr h1 h2
    · rw [if_neg (Nat.lt_asymm hcb), if_pos hcb] at h2
      exact absurd h2 Bool.false_ne_true
  · rw [if_neg (Nat.lt_asymm hba), if_pos hba] at h1
    exact absurd h1 Bool.false_ne_true

theorem chLt_asymm : ∀ a b : List Char, chLt a b = true → chLt b a = false := by
  intro a
  induction a with
  | nil =>
      intro b h
      cases b with
      | nil => exact absurd h (by simp [chLt])
      | cons y ys => simp [chLt]
  | cons x xs ih =>
      intro b h
      cases b with
      | nil => exact absurd h (by simp [chLt])
      | cons y ys =>
          simp only [chLt] at h ⊢
          by_cases h1 : x.toNat < y.toNat
          · rw [if_neg (Nat.lt_asymm h1), if_pos h1]
          · rw [if_neg h1] at h
            by_cases h2 : y.toNat < x.toNat
            · rw [if_pos h2] at h
              exact absurd h Bool.false_ne_true
            · rw [if_neg h2] at h
              rw [if_neg h2, if_neg h1]
              exact ih ys h

theorem chLt_connect : ∀ a c b : List Char,
    chLt a c = true → chLt a b = true ∨ chLt b c = true := by
  intro a
  induction a with
  | nil =>
      intro c b h
      cases c with
      | nil => exact absurd h (by simp [chLt])
      | cons y cs =>
          cases b with
          | nil => exact Or.inr (by simp [chLt])
          | cons z bs => exact Or.inl (by simp [chLt])
  | cons x xs ih =>
      intro c b h
      cases c with
      | nil => exact absurd h (by simp [chLt])
      | cons y cs =>
          cases b with
          | nil => exact Or.inr (by simp [chLt])
          | cons z bs =>
              simp only [chLt] at h ⊢
              by_cases hxy : x.toNat < y.toNat
              · by_cases hxz : x.toNat < z.toNat
                · exact Or.inl (by rw [if_pos hxz])
                · have hzy : z.toNat < y.toNat :=
                    lt_of_le_of_lt (Nat.le_of_not_lt hxz) hxy
                  exact Or.inr (by rw [if_pos hzy])
              · rw [if_neg hxy] at h
                by_cases hyx : y.toNat < x.toNat
                · rw [if_pos hyx] at h
                  exact absurd h Bool.false_ne_true
                · rw [if_neg hyx] at h
                  have hxy2 : x.toNat = y.toNat :=
                    Nat.le_antisymm (Nat.le_of_not_lt hyx) (Nat.le_of_not_lt hxy)
                  by_cases hxz : x.toNat < z.toNat
                  · exact Or.inl (by rw [if_pos hxz])
                  · by_cases hzx : z.toNat < x.toNat
                    · have hzy : z.toNat < y.toNat := hxy2 ▸ hzx
                      exact Or.inr (by rw [if_pos hzy])
                    · have hxz2 : x.toNat = z.toNat :=
                        Nat.le_antisymm (Nat.le_of_not_lt hzx) (Nat.le_of_not_lt hxz)
                      have hzy2 : ¬ z.toNat < y.toNat := by
                        rw [← hxz2, ← hxy2]
                        exact lt_irrefl _
                      have hyz2 : ¬ y.toNat < z.toNat := by
                        rw [← hxz2, ← hxy2]
                        exact lt_irrefl _
                      rcases ih cs bs h with h3 | h3
                      · exact Or.inl (by rw [if_neg hxz, if_neg hzx]; exact h3)
                      · exact Or.inr (by rw [if_neg hzy2, if_neg hyz2]; exact h3)

theorem pyStrLe_total (a b : String) :
    pyStrLe a b = true ∨ pyStrLe b a = true := by
  unfold pyStrLe pyStrLt
  by_cases h : chLt b.data a.data = true
  · right
    rw [chLt_asymm _ _ h]
    rfl
  · left
    cases hq : chLt b.data a.data with
    | false => rfl
    | true => exact absurd hq h

theorem pyStrLe_trans (a b c : String) (h1 : pyStrLe a b = true)
    (h2 : pyStrLe b c = true) : pyStrLe a c = true := by
  unfold pyStrLe pyStrLt at h1 h2 ⊢
  by_cases h : chLt c.data a.data = true
  · rcases chLt_connect c.data a.data b.data h with h3 | h3
    · rw [h3] at h2
      exact absurd h2 (by simp)
    · rw [h3] at h1
      exact absurd h1 (by simp)
  · cases hq : chLt c.data a.data with
    | false => rfl
    | true => exact absurd hq h

theorem matchKeyLe_total (x y : Equation × List String × Nat) :
    matchKeyLe x y = true ∨ matchKeyLe y x = true := by
  simp only [matchKeyLe]
  apply lexStep_total
  apply lexStep_total
  exact pyStrLe_total _ _

theorem matchKeyLe_trans (x y z : Equation × List String × Nat)
    (h1 : matchKeyLe x y = true) (h2 : matchKeyLe y z = true) :
    matchKeyLe x z = true := by
  simp only [matchKeyLe] at h1 h2 ⊢
  refine lexStep_trans _ _ _ _ _ _ ?_ h1 h2
  intro g1 g2
  refine lexStep_trans _ _ _ _ _ _ ?_ g1 g2
  intro k1 k2
  exact pyStrLe_trans _ _ _ k1 k2

set_option maxRecDepth 40000 in
/-- C3: `find_applicable_equations` keeps exactly the equations whose
user-known plus constant-satisfiable variable count reaches `min_overlap`,
with `missing_vars` excluding constant-satisfiable variables, ordered by
the key (solvable first, overlap descending, lowercased display name
ascending); on a known-set making Specific Heat solvable with overlap 3,
Total-ion-concentration solvable with overlap 2 and Osmotic-pressure
unsolvable with overlap 3, the order is [C, A, B] = [Specific Heat,
Total ion conc, Osmotic pressure]. -/
theorem claim_C3 :
    (∀ (known : List (String × Frac)) (minOverlap : Nat),
      (find_applicable_full known minOverlap).Pairwise
        (fun a b => matchKeyLe a b = true) ∧
      (∀ p, p ∈ find_applicable_full known minOverlap ↔
        (p.1 ∈ EQUATIONS ∧ p.2.1 = missingOf p.1 known ∧
         p.2.2 = overlapTotal p.1 known ∧
         minOverlap ≤ overlapTotal p.1 known)) ∧
      find_applicable_equations known minOverlap =
        (find_applicable_full known minOverlap).map (fun t => (t.1, t.2.1))) ∧
    (find_applicable_full
        [("Q", q1), ("m", q1), ("c", q1), ("i_vH", q1), ("c_m", q1)] 2).map
      (fun t => (t.1.key, isSolvable t.1 t.2.1, t.2.2)) =
      [("specific_heat", true, 3), ("total_ion_conc", true, 2),
       ("osmotic_pressure", false, 3)] ∧
    (find_applicable_equations
        [("Q", q1), ("m", q1), ("c", q1), ("i_vH", q1), ("c_m", q1)] 2).map
      (fun t => t.1.ename) =
      ["Specific Heat Capacity", "Total ion concentration (via i)",
       "Osmotic pressure (van ’t Hoff)"] := by
  refine ⟨fun known minOverlap => ⟨?_, ?_, rfl⟩, by decide, by decide⟩
  · haveI : IsTotal (Equation × List String × Nat)
        (fun a b => matchKeyLe a b = true) := ⟨matchKeyLe_total⟩
    haveI : IsTrans (Equation × List String × Nat)
        (fun a b => matchKeyLe a b = true) := ⟨matchKeyLe_trans⟩
    exact List.sorted_insertionSort _ _
  · intro p
    unfold find_applicable_full
    rw [List.mem_insertionSort, List.mem_filterMap]
    constructor
    · rintro ⟨eq, heq, hf⟩
      by_cases hm : minOverlap ≤ overlapTotal eq known
      · rw [if_pos hm] at hf
        have := Option.some.inj hf
        subst this
        exact ⟨heq, rfl, rfl, hm⟩
      · rw [if_neg hm] at hf
        exact absurd hf (by simp)
    · rintro ⟨h1, h2, h3, h4⟩
      refine ⟨p.1, h1, ?_⟩
      rw [if_pos h4, ← h2, ← h3]

set_option maxRecDepth 40000 in
/-- Witness for C3's membership characterisation at a concrete known-set:
Density qualifies with overlap 2 and missing variable ρ. -/
theorem claim_C3_witness :
    ((⟨"density", "Density", ["ρ", "m", "V"], ["ρ", "m", "V"]⟩ : Equation),
      (["ρ"] : List String), 2) ∈
      find_applicable_full [("m", q1), ("V", q1)] 2 :=
  ((claim_C3.1 [("m", q1), ("V", q1)] 2).2.1 _).mpr
    ⟨by decide, by decide, by decide, by decide⟩

theorem except_pure_ok2 {ε α : Type} (a : α) :
    (pure a : Except ε α) = Except.ok a := rfl

theorem except_ok_bind2 {ε α β : Type} (a : α) (f : α → Except ε β) :
    (Except.ok a : Except ε α) >>= f = f a := rfl

theorem except_error_bind2 {ε α β : Type} (e : ε) (f : α → Except ε β) :
    (Except.error e : Except ε α) >>= f = Except.error e := rfl

theorem except_bind_ok {ε α β : Type} {x : Except ε α} {f : α → Except ε β}
    {b : β} (h : x >>= f = Except.ok b) :
    ∃ a, x = Except.ok a ∧ f a = Except.ok b := by
  cases x with
  | error e =>
      rw [except_error_bind2] at h
      exact absurd h (fun hh => Except.noConfusion hh)
  | ok a =>
      refine ⟨a, rfl, ?_⟩
      rwa [except_ok_bind2] at h

theorem mapM_ok_length {ε α β : Type} {f : α → Except ε β} :
    ∀ {l : List α} {rs : List β}, l.mapM f = Except.ok rs → rs.length = l.length := by
  intro l
  induction l with
  | nil =>
      intro rs h
      rw [List.mapM_nil, except_pure_ok2] at h
      rw [← Except.ok.inj h]
      rfl
  | cons a t ih =>
      intro rs h
      rw [List.mapM_cons] at h
      cases hf : f a with
      | error e =>
          rw [hf, except_error_bind2] at h
          exact Except.noConfusion h
      | ok b =>
          simp only [hf, except_ok_bind2] at h
          cases ht : t.mapM f with
          | error e =>
              rw [ht, except_error_bind2] at h
              exact Except.noConfusion h
          | ok bs =>
              simp only [ht, except_ok_bind2, except_pure_ok2] at h
              rw [← Except.ok.inj h, List.length_cons, ih ht,
                List.length_cons]

theorem backSub_length (A : List (List Frac)) (C : Nat)
    (piv : List (Option Nat)) :
    ∀ (fuel : Nat) (sol : List Frac),
      (backSub A C piv fuel sol).length = sol.length := by
  intro fuel
  induction fuel with
  | zero => intro sol; rfl
  | succ i ih =>
      intro sol
      rw [backSub]
      cases hp : piv.getD i none with
      | none => rw [ih]
      | some pc => rw [ih, List.length_set]

theorem foldl_set_length (free : List Nat) :
    ∀ (sol : List Frac),
      (free.foldl (fun s j => s.set j (Frac.ofInt 1)) sol).length = sol.length := by
  induction free with
  | nil => intro sol; rfl
  | cons j t ih =>
      intro sol
      rw [List.foldl_cons, ih, List.length_set]

theorem solToInts_length (sol : List Frac) :
    (solToInts sol).length = sol.length := by
  unfold solToInts
  rw [List.length_map]

theorem signNormalize_length (l : List Int) :
    (signNormalize l).length = l.length := by
  unfold signNormalize
  by_cases h : l.any (fun x => decide (x < 0)) = true
  · rw [if_pos h, List.length_map]
  · rw [if_neg h]

theorem balanceRows_head_length (specs : List BalSpec) :
    ((balanceRows specs).getD 0 []).length = specs.length := by
  unfold balanceRows
  cases hg : gatherElements specs with
  | nil => simp
  | cons el els => simp

theorem dKeys_zip {β : Type} (ks : List String) (vs : List β)
    (h : ks.length ≤ vs.length) : dKeys (ks.zip vs) = ks := by
  have := List.map_fst_zip ks vs h
  simpa [dKeys] using this

/-- Both output sides of a successful rebalance carry exactly the input
keys (the solution vector has one entry per species row). -/
theorem keys_of_zip_out (netL netR : List (String × Int)) (specs : List BalSpec)
    (hlr : specs.length = netL.length + netR.length)
    (A : List (List Frac)) (piv : List (Option Nat)) (r : Nat) :
    dKeys ((dKeys netL).zip ((signNormalize (solToInts (backSub A
        ((balanceRows specs).getD 0 []).length piv r
        (List.foldl (fun s j => s.set j (Frac.ofInt 1))
          (List.replicate ((balanceRows specs).getD 0 []).length (Frac.ofInt 0))
          (freeCols ((balanceRows specs).getD 0 []).length piv))))).take
        netL.length)) = dKeys netL ∧
    dKeys ((dKeys netR).zip ((signNormalize (solToInts (backSub A
        ((balanceRows specs).getD 0 []).length piv r
        (List.foldl (fun s j => s.set j (Frac.ofInt 1))
          (List.replicate ((balanceRows specs).getD 0 []).length (Frac.ofInt 0))
          (freeCols ((balanceRows specs).getD 0 []).length piv))))).drop
        netL.length)) = dKeys netR := by
  have hlen : (signNormalize (solToInts (backSub A
      ((balanceRows specs).getD 0 []).length piv r
      (List.foldl (fun s j => s.set j (Frac.ofInt 1))
        (List.replicate ((balanceRows specs).getD 0 []).length (Frac.ofInt 0))
        (freeCols ((balanceRows specs).getD 0 []).length piv))))).length =
      netL.length + netR.length := by
    rw [signNormalize_length, solToInts_length, backSub_length,
      foldl_set_length, List.length_replicate, balanceRows_head_length, hlr]
  constructor
  · apply dKeys_zip
    rw [List.length_take, hlen]
    simp [dKeys]
  · apply dKeys_zip
    rw [List.length_drop, hlen]
    simp [dKeys]

set_option maxRecDepth 40000 in
/-- C1 (amended): the rebalancing step hands back whatever
`_balance_net_ionic` returns on success and leaves the unscaled counts
unchanged when it raises; a successful rebalance always preserves the
species labels of both sides in order.  On well-posed inputs such as
Ag⁺ + Cl⁻ → AgCl the coefficients (1,1,1) balance every element and the
charge exactly — but neither positivity nor exact balance holds for every
input (see the counterexample). -/
theorem claim_C1 :
    (∀ netL netR out, balance_net_ionic netL netR = Except.ok out →
        net_ionic_step netL netR = out) ∧
    (∀ netL netR e, balance_net_ionic netL netR = Except.error e →
        net_ionic_step netL netR = (netL, netR)) ∧
    (∀ netL netR outL outR,
        balance_net_ionic netL netR = Except.ok (outL, outR) →
        dKeys outL = dKeys netL ∧ dKeys outR = dKeys netR) ∧
    (balance_net_ionic [("Ag^+", 1), ("Cl^-", 1)] [("AgCl", 1)] =
        Except.ok ([("Ag^+", 1), ("Cl^-", 1)], [("AgCl", 1)]) ∧
      sideCharge [("Ag^+", 1), ("Cl^-", 1)] = sideCharge [("AgCl", 1)] ∧
      elemCount [("Ag^+", 1), ("Cl^-", 1)] "Ag" = elemCount [("AgCl", 1)] "Ag" ∧
      elemCount [("Ag^+", 1), ("Cl^-", 1)] "Cl" = elemCount [("AgCl", 1)] "Cl") := by
  refine ⟨?_, ?_, ?_, by decide, by decide, by decide, by decide⟩
  · intro netL netR out h
    unfold net_ionic_step
    rw [h]
  · intro netL netR e h
    unfold net_ionic_step
    rw [h]
  · intro netL netR outL outR h
    unfold balance_net_ionic at h
    cases hs : collectSpecs netL netR with
    | error e =>
        rw [hs, except_error_bind2] at h
        exact Except.noConfusion h
    | ok specs =>
        have hlr : specs.length = netL.length + netR.length := by
          unfold collectSpecs at hs
          obtain ⟨ls, hl, hs2⟩ := except_bind_ok hs
          obtain ⟨rs, hr, hs3⟩ := except_bind_ok hs2
          simp only [except_pure_ok2] at hs3
          rw [← Except.ok.inj hs3, List.length_append,
            mapM_ok_length hl, mapM_ok_length hr]
        simp only [hs, except_ok_bind2] at h
        by_cases hsp : specs = []
        · rw [if_pos hsp, except_pure_ok2] at h
          have h' := Except.ok.inj h
          have h1 : netL = outL := congrArg Prod.fst h'
          have h2 : netR = outR := congrArg Prod.snd h'
          rw [← h1, ← h2]
          exact ⟨rfl, rfl⟩
        · rw [if_neg hsp] at h
          simp only [except_pure_ok2] at h
          have h' := Except.ok.inj h
          have h1 : _ = outL := congrArg Prod.fst h'
          have h2 : _ = outR := congrArg Prod.snd h'
          constructor
          · rw [← h1]
            exact (keys_of_zip_out netL netR specs hlr _ _ _).1
          · rw [← h2]
            exact (keys_of_zip_out netL netR specs hlr _ _ _).2

set_option maxRecDepth 40000 in
/-- C1 counterexample: on the redox pair Fe²⁺ + Ag → Fe³⁺ + Ag⁺ the
"rebalanced" coefficients are all 1 while the net charges are 2 vs 4
(charge balance violated); on Na⁺ → K⁺ the returned coefficients are 0
(positivity violated). -/
theorem claim_C1_counterexample :
    (balance_net_ionic [("Fe^2+", 1), ("Ag", 1)] [("Fe^3+", 1), ("Ag^+", 1)] =
        Except.ok ([("Fe^2+", 1), ("Ag", 1)], [("Fe^3+", 1), ("Ag^+", 1)]) ∧
      sideCharge [("Fe^2+", 1), ("Ag", 1)] ≠
        sideCharge [("Fe^3+", 1), ("Ag^+", 1)]) ∧
    (balance_net_ionic [("Na+", 1)] [("K+", 1)] =
        Except.ok ([("Na+", 0)], [("K+", 0)]) ∧
      ¬ (∀ kv ∈ [("Na+", (0 : Int))], 0 < kv.2)) :=
  ⟨⟨by decide, by decide⟩, ⟨by decide, by decide⟩⟩

set_option maxRecDepth 40000 in
/-- Witness for C1: the tokenizer error on `1X` triggers the unscaled
fallback; the Ag⁺/Cl⁻ rebalance is handed back on success; and the Na⁺/K⁺
run preserves the keys. -/
theorem claim_C1_witness :
    net_ionic_step [("1X", 1)] [] = ([("1X", 1)], []) ∧
    net_ionic_step [("Ag^+", 1), ("Cl^-", 1)] [("AgCl", 1)] =
      ([("Ag^+", 1), ("Cl^-", 1)], [("AgCl", 1)]) ∧
    dKeys [("Na+", (0 : Int))] = dKeys [("Na+", (1 : Int))] :=
  ⟨claim_C1.2.1 _ _ TokErr.badChar (by decide),
    claim_C1.1 _ _ _ (by decide),
    (claim_C1.2.2.1 [("Na+", 1)] [("K+", 1)] [("Na+", 0)] [("K+", 0)]
      (by decide)).1⟩

theorem option_some_bind {α β : Type} (a : α) (f : α → Option β) :
    (some a >>= f) = f a := rfl

theorem option_none_bind {α β : Type} (f : α → Option β) :
    ((none : Option α) >>= f) = none := rfl

theorem fmax_den_pos {a b : Frac} (ha : 0 < a.den) (hb : 0 < b.den) :
    0 < (fmax a b).den := by
  unfold fmax
  split
  · exact hb
  · exact ha

theorem fmin_den_pos {a b : Frac} (ha : 0 < a.den) (hb : 0 < b.den) :
    0 < (fmin a b).den := by
  unfold fmin
  split
  · exact hb
  · exact ha

theorem extentBounds_den_pos (stoich : List (String × Int)) (C0 : String → Frac)
    (hden : ∀ s, 0 < (C0 s).den) :
    0 < (extentBounds stoich C0).1.den ∧ 0 < (extentBounds stoich C0).2.den := by
  unfold extentBounds
  have haux : ∀ (l : List (String × Int)) (init : Frac × Frac),
      0 < init.1.den → 0 < init.2.den →
      0 < (l.foldl (fun lh kv =>
        if kv.2 = 0 then lh
        else if 0 < kv.2 then
          (fmax lh.1 ((C0 kv.1).neg.div (Frac.ofInt kv.2)), lh.2)
        else
          (lh.1, fmin lh.2 ((C0 kv.1).neg.div (Frac.ofInt kv.2)))) init).1.den ∧
      0 < (l.foldl (fun lh kv =>
        if kv.2 = 0 then lh
        else if 0 < kv.2 then
          (fmax lh.1 ((C0 kv.1).neg.div (Frac.ofInt kv.2)), lh.2)
        else
          (lh.1, fmin lh.2 ((C0 kv.1).neg.div (Frac.ofInt kv.2)))) init).2.den := by
    intro l
    induction l with
    | nil => intro init h1 h2; exact ⟨h1, h2⟩
    | cons kv t ih =>
        intro init h1 h2
        rw [List.foldl_cons]
        by_cases h0 : kv.2 = 0
        · rw [if_pos h0]
          exact ih init h1 h2
        · rw [if_neg h0]
          have hdd : 0 < ((C0 kv.1).neg.div (Frac.ofInt kv.2)).den :=
            Frac.div_den_pos (hden kv.1) h0
          by_cases hp : 0 < kv.2
          · rw [if_pos hp]
            exact ih _ (fmax_den_pos h1 hdd) h2
          · rw [if_neg hp]
            exact ih _ h1 (fmin_den_pos h2 hdd)
  exact haux stoich (bigB.neg, bigB) (Frac.dec_den_pos _ _) (Frac.dec_den_pos _ _)

theorem gridPoint_den_pos {lo hi : Frac} (hlo : 0 < lo.den) (hhi : 0 < hi.den)
    (i : Nat) : 0 < (gridPoint lo hi i).den := by
  unfold gridPoint
  exact Frac.add_den_pos hlo
    (Frac.div_den_pos (Frac.mul_den_pos (Frac.sub_den_pos hhi hlo)
      (Frac.ofInt_den_pos _)) (by decide))

theorem half_den_pos : 0 < half.den := by decide

theorem mid_den_pos {a b : Frac} (ha : 0 < a.den) (hb : 0 < b.den) :
    0 < ((a.add b).mul half).den :=
  Frac.mul_den_pos (Frac.add_den_pos ha hb) half_den_pos

theorem mid_val {a b : Frac} (ha : 0 < a.den) (hb : 0 < b.den) :
    ((a.add b).mul half).val = (a.val + b.val) / 2 := by
  rw [Frac.val_mul (Frac.add_den_pos ha hb).ne' half_den_pos.ne',
    Frac.val_add ha.ne' hb.ne']
  have hh : half.val = 1 / 2 := by
    rw [show half = Frac.normMk 1 2 from rfl, Frac.normMk_val (by decide)]
    norm_num
  rw [hh]
  ring

theorem cval (C0 : String → Frac) (x : Frac) (kv : String × Int)
    (hc : 0 < (C0 kv.1).den) (hx : 0 < x.den) :
    ((C0 kv.1).add ((Frac.ofInt kv.2).mul x)).val =
      (C0 kv.1).val + kv.2 * x.val := by
  rw [Frac.val_add hc.ne' (Frac.mul_den_pos (Frac.ofInt_den_pos kv.2) hx).ne',
    Frac.val_mul (Frac.ofInt_den_pos kv.2).ne' hx.ne', Frac.val_ofInt]

theorem qStep_none {C0 : String → Frac} {x : Frac} (acc : Frac × Frac)
    (kv : String × Int)
    (hble : ((C0 kv.1).add ((Frac.ofInt kv.2).mul x)).ble (Frac.ofInt 0) = true) :
    qStep C0 x acc kv = none := by
  simp only [qStep]
  rw [if_pos hble]

theorem qStep_some {C0 : String → Frac} {x : Frac} (acc : Frac × Frac)
    (kv : String × Int)
    (hbf : ((C0 kv.1).add ((Frac.ofInt kv.2).mul x)).ble (Frac.ofInt 0) = false) :
    ∃ nd2, qStep C0 x acc kv = some nd2 := by
  simp only [qStep]
  rw [if_neg (by rw [hbf]; exact Bool.false_ne_true)]
  by_cases hp : 0 < kv.2
  · rw [if_pos hp]
    exact ⟨_, rfl⟩
  · rw [if_neg hp]
    by_cases hn : kv.2 < 0
    · rw [if_pos hn]
      exact ⟨_, rfl⟩
    · rw [if_neg hn]
      exact ⟨_, rfl⟩

theorem Q_fold_pos (C0 : String → Frac) (x : Frac) :
    ∀ (l : List (String × Int)) (acc r : Frac × Frac),
      (l.foldlM (qStep C0 x) acc = some r) →
      ∀ kv ∈ l,
        ((C0 kv.1).add ((Frac.ofInt kv.2).mul x)).ble (Frac.ofInt 0) = false := by
  intro l
  induction l with
  | nil => intro acc r _ kv hkv; simp at hkv
  | cons kv0 t ih =>
      intro acc r h kv hkv
      rw [List.foldlM_cons] at h
      by_cases hble : ((C0 kv0.1).add ((Frac.ofInt kv0.2).mul x)).ble
          (Frac.ofInt 0) = true
      · rw [qStep_none acc kv0 hble, option_none_bind] at h
        exact Option.noConfusion h
      · have hbf : ((C0 kv0.1).add ((Frac.ofInt kv0.2).mul x)).ble
            (Frac.ofInt 0) = false := by
          cases hq : ((C0 kv0.1).add ((Frac.ofInt kv0.2).mul x)).ble (Frac.ofInt 0)
          · rfl
          · exact absurd hq hble
        rcases List.mem_cons.mp hkv with hk | hk
        · rw [hk]
          exact hbf
        · obtain ⟨nd2, hstep⟩ := qStep_some acc kv0 hbf
          rw [hstep, option_some_bind] at h
          exact ih _ r h kv hk

theorem Q_of_pos {stoich : List (String × Int)} {C0 : String → Frac}
    {x q : Frac} (hden : ∀ s, 0 < (C0 s).den) (hx : 0 < x.den)
    (hq : Q_of stoich C0 x = some q) :
    ∀ kv ∈ stoich, 0 < (C0 kv.1).val + kv.2 * x.val := by
  unfold Q_of at hq
  rw [Option.map_eq_some'] at hq
  obtain ⟨nd, hnd, _⟩ := hq
  intro kv hkv
  have hble := Q_fold_pos C0 x stoich _ _ hnd kv hkv
  have hcd : 0 < ((C0 kv.1).add ((Frac.ofInt kv.2).mul x)).den :=
    Frac.add_den_pos (hden kv.1) (Frac.mul_den_pos (Frac.ofInt_den_pos kv.2) hx)
  have hnle : ¬ (((C0 kv.1).add ((Frac.ofInt kv.2).mul x)).ble
      (Frac.ofInt 0) = true) := by
    rw [hble]
    exact Bool.false_ne_true
  rw [Frac.ble_iff hcd (Frac.ofInt_den_pos 0), Frac.val_ofInt] at hnle
  have hlt := not_le.mp (by exact_mod_cast hnle)
  rw [cval C0 x kv (hden kv.1) hx] at hlt
  exact hlt

theorem good_mid {stoich : List (String × Int)} {C0 : String → Frac}
    {a b : Frac} (ha : 0 < a.den) (hb : 0 < b.den)
    (hga : ∀ kv ∈ stoich, 0 ≤ (C0 kv.1).val + kv.2 * a.val)
    (hgb : ∀ kv ∈ stoich, 0 ≤ (C0 kv.1).val + kv.2 * b.val) :
    ∀ kv ∈ stoich, 0 ≤ (C0 kv.1).val + kv.2 * ((a.add b).mul half).val := by
  intro kv hkv
  rw [mid_val ha hb]
  have h1 := hga kv hkv
  have h2 := hgb kv hkv
  linarith

theorem bisect_good {stoich : List (String × Int)} {C0 : String → Frac}
    (f : Frac → Option Frac) :
    ∀ (fuel : Nat) (a b x : Frac), 0 < a.den → 0 < b.den →
      (∀ kv ∈ stoich, 0 ≤ (C0 kv.1).val + kv.2 * a.val) →
      (∀ kv ∈ stoich, 0 ≤ (C0 kv.1).val + kv.2 * b.val) →
      bisect f fuel a b = Except.ok x →
      ∀ kv ∈ stoich, 0 ≤ (C0 kv.1).val + kv.2 * x.val := by
  intro fuel
  induction fuel with
  | zero =>
      intro a b x ha hb hga hgb h
      rw [bisect] at h
      rw [← Except.ok.inj h]
      exact good_mid ha hb hga hgb
  | succ n ih =>
      intro a b x ha hb hga hgb h
      rw [bisect] at h
      split at h
      · rw [← Except.ok.inj h]
        exact good_mid ha hb hga hgb
      · split at h
        · rw [← Except.ok.inj h]
          exact good_mid ha hb hga hgb
        · split at h
          · exact Except.noConfusion h
          · split at h
            · exact ih a _ x ha (mid_den_pos ha hb) hga
                (good_mid ha hb hga hgb) h
            · exact ih _ b x (mid_den_pos ha hb) hb
                (good_mid ha hb hga hgb) hgb h

theorem bisect_ne_infeasible (f : Frac → Option Frac) :
    ∀ (fuel : Nat) (a b : Frac),
      bisect f fuel a b ≠ Except.error ExtErr.infeasible := by
  intro fuel
  induction fuel with
  | zero =>
      intro a b h
      rw [bisect] at h
      exact Except.noConfusion h
  | succ n ih =>
      intro a b h
      rw [bisect] at h
      split at h
      · exact Except.noConfusion h
      · split at h
        · exact Except.noConfusion h
        · split at h
          · exact ExtErr.noConfusion (Except.error.inj h)
          · split at h
            · exact ih _ _ h
            · exact ih _ _ h

theorem scanBracket_found (xs : Nat → Frac) (vals : Nat → Option Frac) :
    ∀ (fuel i : Nat) (x : Frac), scanBracket xs vals fuel i = .found x →
      ∃ j, x = xs j ∧ ∃ v, vals j = some v := by
  intro fuel
  induction fuel with
  | zero => intro i x h; exact ScanRes.noConfusion h
  | succ n ih =>
      intro i x h
      rw [scanBracket] at h
      split at h
      · next fa fb hva hvb =>
          split at h
          · exact ⟨i, (ScanRes.found.inj h).symm, fa, hva⟩
          · split at h
            · exact ⟨i + 1, (ScanRes.found.inj h).symm, fb, hvb⟩
            · split at h
              · exact ScanRes.noConfusion h
              · exact ih (i + 1) x h
      · exact ih (i + 1) x h

theorem scanBracket_bracket (xs : Nat → Frac) (vals : Nat → Option Frac) :
    ∀ (fuel i : Nat) (a b : Frac), scanBracket xs vals fuel i = .bracket a b →
      ∃ j, a = xs j ∧ b = xs (j + 1) ∧
        (∃ v, vals j = some v) ∧ ∃ w, vals (j + 1) = some w := by
  intro fuel
  induction fuel with
  | zero => intro i a b h; exact ScanRes.noConfusion h
  | succ n ih =>
      intro i a b h
      rw [scanBracket] at h
      split at h
      · next fa fb hva hvb =>
          split at h
          · exact ScanRes.noConfusion h
          · split at h
            · exact ScanRes.noConfusion h
            · split at h
              · refine ⟨i, ?_, ?_, ⟨fa, hva⟩, fb, hvb⟩
                · exact ((ScanRes.bracket.inj h).1).symm
                · exact ((ScanRes.bracket.inj h).2).symm
              · exact ih (i + 1) a b h
      · exact ih (i + 1) a b h

theorem fallbackScan_some (xs : Nat → Frac) (vals : Nat → Option Frac) :
    ∀ (fuel i : Nat) (best : Option (Frac × Frac)) (x : Frac),
      (∀ pr, best = some pr → ∃ j, pr.2 = xs j ∧ ∃ v, vals j = some v) →
      fallbackScan xs vals fuel i best = some x →
      ∃ j, x = xs j ∧ ∃ v, vals j = some v := by
  intro fuel
  induction fuel with
  | zero =>
      intro i best x hinv h
      rw [fallbackScan, Option.map_eq_some'] at h
      obtain ⟨pr, hpr, hx2⟩ := h
      obtain ⟨j, hj, v, hv⟩ := hinv pr hpr
      exact ⟨j, by rw [← hx2, hj], v, hv⟩
  | succ n ih =>
      intro i best x hinv h
      simp only [fallbackScan] at h
      cases hv : vals i with
      | none =>
          simp only [hv] at h
          exact ih (i + 1) best x hinv h
      | some v =>
          simp only [hv] at h
          cases hbst : best with
          | none =>
              simp only [hbst] at h
              refine ih (i + 1) _ x ?_ h
              intro pr hpr
              rw [← Option.some.inj hpr]
              exact ⟨i, rfl, v, hv⟩
          | some pr0 =>
              simp only [hbst] at h
              by_cases hlt : v.fabs.blt pr0.1 = true
              · rw [if_pos hlt] at h
                refine ih (i + 1) _ x ?_ h
                intro pr hpr
                rw [← Option.some.inj hpr]
                exact ⟨i, rfl, v, hv⟩
              · rw [if_neg hlt] at h
                refine ih (i + 1) _ x ?_ h
                intro pr hpr
                exact hinv pr (by rw [hbst, hpr])

set_option maxRecDepth 40000 in
/-- C2 (amended): the extent solver reports the infeasibility error
exactly when the feasible interval `[lo, hi]` built from the per-species
non-negativity constraints is empty (`lo ≥ hi`); and every extent it
returns keeps every species' concentration `C0_i + ν_i·x` non-negative —
exactly, which implies the claimed `≥ -1e-9`.  (The original claim that a
non-empty interval never raises is refuted by the counterexample: the
evaluation-failure error can occur with `lo < hi`.) -/
theorem claim_C2 :
    (∀ (stoich : List (String × Int)) (C0 : String → Frac) (K : Frac),
      solve_extent_for_K stoich C0 K = Except.error ExtErr.infeasible ↔
        (extentBounds stoich C0).1.blt (extentBounds stoich C0).2 = false) ∧
    (∀ (stoich : List (String × Int)) (C0 : String → Frac) (K : Frac)
        (x : Frac),
      (∀ s, 0 < (C0 s).den) →
      solve_extent_for_K stoich C0 K = Except.ok x →
      ∀ kv ∈ stoich, 0 ≤ (C0 kv.1).val + kv.2 * x.val) := by
  constructor
  · intro stoich C0 K
    constructor
    · intro h
      cases hb : (extentBounds stoich C0).1.blt (extentBounds stoich C0).2 with
      | false => rfl
      | true =>
          exfalso
          unfold solve_extent_for_K at h
          simp only [hb, Bool.not_true] at h
          rw [if_neg Bool.false_ne_true] at h
          split at h
          · exact Except.noConfusion h
          · exact bisect_ne_infeasible _ _ _ _ h
          · split at h
            · exact Except.noConfusion h
            · exact ExtErr.noConfusion (Except.error.inj h)
    · intro hb
      unfold solve_extent_for_K
      simp only [hb, Bool.not_false]
      rw [if_pos trivial]
  · intro stoich C0 K x hden h
    unfold solve_extent_for_K at h
    cases hb : (extentBounds stoich C0).1.blt (extentBounds stoich C0).2 with
    | false =>
        simp only [hb, Bool.not_false] at h
        rw [if_pos trivial] at h
        exact absurd h (fun hh => Except.noConfusion hh)
    | true =>
        simp only [hb, Bool.not_true] at h
        rw [if_neg Bool.false_ne_true] at h
        obtain ⟨hlod, hhid⟩ := extentBounds_den_pos stoich C0 hden
        split at h
        · next x0 heq =>
            obtain ⟨j, hj, v, hv⟩ := scanBracket_found _ _ _ _ _ heq
            have hv2 : fObj stoich C0 K (gridPoint (extentBounds stoich C0).1
                (extentBounds stoich C0).2 j) = some v := hv
            unfold fObj at hv2
            rw [Option.map_eq_some'] at hv2
            obtain ⟨q, hq, _⟩ := hv2
            intro kv hkv
            have hpos := Q_of_pos hden (gridPoint_den_pos hlod hhid j) hq kv hkv
            rw [← Except.ok.inj h, hj]
            exact le_of_lt hpos
        · next a b heq =>
            obtain ⟨j, hja, hjb, ⟨v, hv⟩, w, hw⟩ :=
              scanBracket_bracket _ _ _ _ _ _ heq
            have hv2 : fObj stoich C0 K (gridPoint (extentBounds stoich C0).1
                (extentBounds stoich C0).2 j) = some v := hv
            have hw2 : fObj stoich C0 K (gridPoint (extentBounds stoich C0).1
                (extentBounds stoich C0).2 (j + 1)) = some w := hw
            unfold fObj at hv2 hw2
            rw [Option.map_eq_some'] at hv2 hw2
            obtain ⟨qa, hqa, _⟩ := hv2
            obtain ⟨qb, hqb, _⟩ := hw2
            have hga : ∀ kv ∈ stoich, 0 ≤ (C0 kv.1).val + kv.2 * a.val := by
              intro kv hkv
              rw [hja]
              exact le_of_lt
                (Q_of_pos hden (gridPoint_den_pos hlod hhid j) hqa kv hkv)
            have hgb : ∀ kv ∈ stoich, 0 ≤ (C0 kv.1).val + kv.2 * b.val := by
              intro kv hkv
              rw [hjb]
              exact le_of_lt
                (Q_of_pos hden (gridPoint_den_pos hlod hhid (j + 1)) hqb kv hkv)
            have hda : 0 < a.den := by
              rw [hja]
              exact gridPoint_den_pos hlod hhid j
            have hdb : 0 < b.den := by
              rw [hjb]
              exact gridPoint_den_pos hlod hhid (j + 1)
            exact bisect_good _ 100 a b x hda hdb hga hgb h
        · split at h
          · next x0 heq2 =>
              obtain ⟨j, hj, v, hv⟩ := fallbackScan_some _ _ _ _ _ _
                (fun pr hpr => absurd hpr (fun hh => Option.noConfusion hh)) heq2
              have hv2 : fObj stoich C0 K (gridPoint (extentBounds stoich C0).1
                  (extentBounds stoich C0).2 j) = some v := hv
              unfold fObj at hv2
              rw [Option.map_eq_some'] at hv2
              obtain ⟨q, hq, _⟩ := hv2
              intro kv hkv
              have hpos := Q_of_pos hden (gridPoint_den_pos hlod hhid j) hq kv hkv
              rw [← Except.ok.inj h, hj]
              exact le_of_lt hpos
          · exact absurd h (fun hh => Except.noConfusion hh)

set_option maxRecDepth 40000 in
/-- C2 counterexample: with species C carrying ν = 0 and C0 = 0 the
feasible interval is `(-1, 1)` — non-empty — yet the solver raises the
evaluation-failure error (every grid evaluation is undefined), refuting
"never raises once the feasible interval is non-empty". -/
theorem claim_C2_counterexample :
    (extentBounds [("A", 1), ("B", -1), ("C", 0)]
        (fun s => if s = "C" then Frac.ofInt 0 else Frac.ofInt 1)).1.blt
      (extentBounds [("A", 1), ("B", -1), ("C", 0)]
        (fun s => if s = "C" then Frac.ofInt 0 else Frac.ofInt 1)).2 = true ∧
    solve_extent_for_K [("A", 1), ("B", -1), ("C", 0)]
        (fun s => if s = "C" then Frac.ofInt 0 else Frac.ofInt 1)
        (Frac.ofInt 1) =
      Except.error ExtErr.evalFailed :=
  ⟨by decide, by decide⟩

set_option maxRecDepth 40000 in
/-- Witness for C2: an infeasible run (all start concentrations −1), and
the non-negativity of the returned extent on A ⇌ B with unit start
concentrations and K = 1 (solved extent 0). -/
theorem claim_C2_witness :
    solve_extent_for_K [("A", 1), ("B", -1)] (fun _ => Frac.ofInt (-1))
        (Frac.ofInt 1) = Except.error ExtErr.infeasible ∧
    ∀ kv ∈ [("A", (1 : Int)), ("B", -1)],
      0 ≤ ((fun (_ : String) => Frac.ofInt 1) kv.1).val +
        kv.2 * (⟨0, 1⟩ : Frac).val :=
  ⟨(claim_C2.1 [("A", 1), ("B", -1)] (fun _ => Frac.ofInt (-1))
      (Frac.ofInt 1)).mpr (by decide),
    claim_C2.2 [("A", 1), ("B", -1)] (fun _ => Frac.ofInt 1) (Frac.ofInt 1)
      ⟨0, 1⟩ (fun _ => Frac.ofInt_den_pos 1) (by decide)⟩
